import Mathlib

/-!
# Verification of the OmniSketch core (`src/omnisketch.c`)

A shallow embedding of the OmniSketch data structure and its operations,
translated from `src/omnisketch.c`.  Machine integers are modelled as `Nat`
with explicit reduction modulo `2^32` where the C code relies on 32-bit
wrap-around; the `int32` comparisons performed by `cmp_item_hash` are
modelled through `int32val`.  Buckets and their trailing sample slots are
modelled together as `Cell` values (the C layout stores the `bucket_t`
array and the flat `int32` slot array separately, indexed by the same
linear bucket index); a sketch's payload is the list of its cells in
linear-index order, so equality of two `Sketch` values corresponds to
byte-identity of the C representation (bucket fields, all `B` sample
slots per cell, and the header fields).
-/

/-! ## XXH32 on a single 4-byte little-endian word

The C code only ever hashes `uint32` values (`SKETCH_HASH(v, s)` is
`XXH32(&v, sizeof(uint32), s)`), so only the `len = 4` branch of XXH32 is
needed: one 4-byte lane followed by the avalanche.  Checked against
libxxhash's `XXH32` on concrete inputs. -/

def rotl17 (x : Nat) : Nat :=
  ((x <<< 17) ||| (x >>> 15)) % 4294967296

def xxh32 (input seed : Nat) : Nat :=
  let inp := input % 4294967296
  let sd := seed % 4294967296
  let h0 := (sd + 374761393 + 4) % 4294967296
  let h1 := (h0 + inp * 3266489917) % 4294967296
  let h2 := (rotl17 h1 * 668265263) % 4294967296
  let h3 := ((h2 ^^^ (h2 >>> 15)) * 2246822519) % 4294967296
  let h4 := ((h3 ^^^ (h3 >>> 13)) * 3266489917) % 4294967296
  (h4 ^^^ (h4 >>> 16)) % 4294967296

/-- `SKETCH_SEED` (0xFFFFFFFF), the seed of the item-priority hash `H_s`. -/
def SKETCH_SEED : Nat := 4294967295

/-- `SKETCH_HASH(item, SKETCH_SEED)`: the bottom-k priority of an item. -/
def Hs (item : Nat) : Nat := xxh32 item SKETCH_SEED

/-- The value of a 32-bit word reinterpreted as a signed `int32`
(the sample slots are declared `int32` in C, so `cmp_item_hash` and the
sortedness assertions compare them as signed integers). -/
def int32val (x : Nat) : Int :=
  if x % 4294967296 < 2147483648 then ((x % 4294967296 : Nat) : Int)
  else ((x % 4294967296 : Nat) : Int) - 4294967296

/-- The total order used by `cmp_item_hash`: first the `H_s` hash, then the
signed item value.  A final tie-break on the raw `Nat` makes the relation
antisymmetric on all of `Nat`; for the 32-bit values actually stored by the
C code the tie-break is reachable only when the two values are equal, so
the order coincides with `cmp_item_hash`. -/
def ile (a b : Nat) : Prop :=
  Hs a < Hs b ∨ (Hs a = Hs b ∧ (int32val a < int32val b ∨ (int32val a = int32val b ∧ a ≤ b)))

instance : DecidableRel ile := fun a b => by
  unfold ile; infer_instance

/-- The strict part of the `(H_s, signed item)` order, as used by the
sortedness assertion in `AssertCheckBucket`. -/
def ilt (a b : Nat) : Prop :=
  Hs a < Hs b ∨ (Hs a = Hs b ∧ int32val a < int32val b)

instance : DecidableRel ilt := fun a b => by
  unfold ilt; infer_instance

/-! ## Data model (`omnisketch_t`, `bucket_t`, sample slots) -/

/-- One cell of a sketch: the `bucket_t` fields together with the cell's
`sampleSize` sample slots (`SKETCH_SAMPLE` region). -/
structure Cell where
  totalCount : Nat
  sampleCount : Nat
  maxIndex : Nat
  maxHash : Nat
  isSorted : Bool
  slots : List Nat
deriving Repr, DecidableEq

/-- A zeroed cell, as produced by `palloc0` in `omnisketch_allocate`. -/
def emptyCell (B : Nat) : Cell :=
  ⟨0, 0, 0, 0, false, List.replicate B 0⟩

/-- The stored sample of a cell: its first `sampleCount` slots. -/
def stored (c : Cell) : List Nat := c.slots.take c.sampleCount

/-- The `omnisketch_t` header plus the payload cells in linear order. -/
structure Sketch where
  numSketches : Nat
  sketchWidth : Nat
  sketchHeight : Nat
  sampleSize : Nat
  itemSize : Nat
  count : Nat
  seed : Nat
  cells : List Cell
deriving Repr, DecidableEq

/-- `SKETCH_BUCKET_INDEX(s, a, i, j)`. -/
def SKETCH_BUCKET_INDEX (s : Sketch) (a i j : Nat) : Nat :=
  a * (s.sketchWidth * s.sketchHeight) + i * s.sketchWidth + j

/-- `omnisketch_allocate`: all counters and slots zeroed.  The C function
draws `seed` from the process PRNG; the model takes it as a parameter. -/
def omnisketch_allocate (nsketches width height sampleSize itemSize seed : Nat) : Sketch :=
  { numSketches := nsketches
    sketchWidth := width
    sketchHeight := height
    sampleSize := sampleSize
    itemSize := itemSize
    count := 0
    seed := seed
    cells := List.replicate (nsketches * (width * height)) (emptyCell sampleSize) }

/-! ## Bucket/sample engine (`omnisketch_sample_add`) -/

/-- The scan in the full-sample branch of `omnisketch_sample_add`:
`maxHash = 0; for k: if (h >= maxHash) { maxHash = h; maxIndex = k; }`. -/
def recompute_max : List Nat → Nat → Nat × Nat → Nat × Nat
  | [], _, acc => acc
  | x :: xs, k, acc =>
      recompute_max xs (k + 1) (if acc.1 ≤ Hs x then (Hs x, k) else acc)

/-- `omnisketch_sample_add` (the bucket's `totalCount` is incremented by the
caller `omnisketch_add_hash`, not here). -/
def omnisketch_sample_add (B : Nat) (c : Cell) (item : Nat) : Cell :=
  let h := Hs item
  if c.sampleCount < B then
    let c1 :=
      if c.sampleCount = 0 then { c with maxIndex := 0, maxHash := h }
      else if c.maxHash < h then { c with maxIndex := c.sampleCount, maxHash := h }
      else c
    { c1 with slots := c1.slots.set c1.sampleCount item, sampleCount := c1.sampleCount + 1 }
  else if h < c.maxHash then
    let slots1 := c.slots.set c.maxIndex item
    let mm := recompute_max (slots1.take c.sampleCount) 0 (0, c.maxIndex)
    { c with slots := slots1, maxHash := mm.1, maxIndex := mm.2 }
  else c

/-! ## Sketch builder (`omnisketch_add_hash`, `omnisketch_add`) -/

/-- The row loop of `omnisketch_add_hash`, iterating over the given row
indices: per row `i`, bump `totalCount` of cell `(column, i, H_r(hash,i) mod W)`
and run `omnisketch_sample_add` on it. -/
def add_hash_rows (column hash item : Nat) : Sketch → List Nat → Sketch
  | s, [] => s
  | s, i :: rest =>
      let h := xxh32 hash i
      let j := h % s.sketchWidth
      let idx := SKETCH_BUCKET_INDEX s column i j
      let c := s.cells.getD idx (emptyCell s.sampleSize)
      let c1 := omnisketch_sample_add s.sampleSize { c with totalCount := c.totalCount + 1 } item
      add_hash_rows column hash item { s with cells := s.cells.set idx c1 } rest

/-- `omnisketch_add_hash`. -/
def omnisketch_add_hash (s : Sketch) (column hash item : Nat) : Sketch :=
  add_hash_rows column hash item s (List.range s.sketchHeight)

/-- The column loop of `omnisketch_add`: each column's pre-computed hash is
inserted under the record's id, with columns numbered from `i`. -/
def add_columns (item : Nat) : Sketch → Nat → List Nat → Sketch
  | s, _, [] => s
  | s, i, h :: hs => add_columns item (omnisketch_add_hash s i h item) (i + 1) hs

/-- The core of `omnisketch_add` on an existing sketch: bump `count`,
derive the record id as `XXH32(count, seed)`, and insert every column hash.
(The host-side tuple deforming and per-type hash dispatch are outside the
core; the model receives the per-column 32-bit hashes directly.) -/
def omnisketch_add (s : Sketch) (hashes : List Nat) : Sketch :=
  let s1 := { s with count := s.count + 1 }
  let item := xxh32 s1.count s1.seed
  add_columns item s1 0 hashes

/-! ## Sorting and merging (`cmp_item_hash`, `omnisketch_sorted_items`,
`omnisketch_merge_buckets`) -/

/-- `omnisketch_sorted_items`: the stored items in `(H_s, item)` order,
reusing the stored order when `isSorted` is set.  `pg_qsort` with
`cmp_item_hash` produces the unique list sorted under the total order
`ile`; the model keeps items (the C code carries `(item, hash)` pairs to
cache the hash). -/
def omnisketch_sorted_items (c : Cell) : List Nat :=
  if c.isSorted then stored c else List.insertionSort ile (stored c)

/-- The two-pointer merge loop of `omnisketch_merge_buckets`: emit the
smaller head under `cmp_item_hash` (ties taking the first list, matching
the C `else` branch) until `sampleSize` outputs are produced or both
inputs are exhausted. -/
def merge_loop : Nat → List Nat → List Nat → List Nat
  | 0, _, _ => []
  | _ + 1, [], [] => []
  | B + 1, [], y :: ys => y :: merge_loop B [] ys
  | B + 1, x :: xs, [] => x :: merge_loop B xs []
  | B + 1, x :: xs, y :: ys =>
      if ile x y then x :: merge_loop B xs (y :: ys)
      else y :: merge_loop B (x :: xs) ys

/-- `omnisketch_merge_buckets` (`dst` is the updated bucket): early return
when the source sample is empty; otherwise two-pointer merge of the two
sorted item lists, writing the merged prefix over `dst`'s slots, setting
`maxHash` to the hash of the last emitted item, `maxIndex` to the last
merged position, and `isSorted`. -/
def omnisketch_merge_buckets (B : Nat) (dst src : Cell) : Cell :=
  if src.sampleCount = 0 then dst
  else
    let merged := merge_loop B (omnisketch_sorted_items dst) (omnisketch_sorted_items src)
    { totalCount := dst.totalCount + src.totalCount
      sampleCount := merged.length
      maxIndex := merged.length - 1
      maxHash :=
        match merged.getLast? with
        | some x => Hs x
        | none => dst.maxHash
      isSorted := true
      slots := merged ++ dst.slots.drop merged.length }

/-! ## Combiner (`omnisketch_equals`, `omnisketch_combine`) -/

/-- `omnisketch_equals`: structural compatibility of two sketches. -/
def omnisketch_equals (a b : Sketch) : Bool :=
  a.numSketches == b.numSketches &&
  a.sketchHeight == b.sketchHeight &&
  a.sketchWidth == b.sketchWidth &&
  a.sampleSize == b.sampleSize &&
  a.itemSize == b.itemSize

/-- The merging core of `omnisketch_combine` (both arguments present and
structurally equal): merge cells pairwise in linear order and sum the
record counts.  The first sketch is the updated one. -/
def omnisketch_combine (dst src : Sketch) : Sketch :=
  { dst with
    count := dst.count + src.count
    cells := List.zipWith (omnisketch_merge_buckets dst.sampleSize) dst.cells src.cells }

/-- `omnisketch_copy`: a flat byte copy. -/
def omnisketch_copy (s : Sketch) : Sketch := s

/-- The SQL-level `omnisketch_combine` entry: NULL handling and the
structural-equality check (`elog(ERROR, "sketches do not match")`). -/
def omnisketch_combine_args (a b : Option Sketch) : Except String (Option Sketch) :=
  match a with
  | none =>
      match b with
      | none => .ok none
      | some sb => .ok (some (omnisketch_copy sb))
  | some sa =>
      match b with
      | none => .ok (some sa)
      | some sb =>
          if omnisketch_equals sb sa then .ok (some (omnisketch_combine sa sb))
          else .error "sketches do not match"

/-- `omnisketch_combine` with the source sketch threaded through each merge
exactly as the C code leaves it: every write of `omnisketch_merge_buckets`
targets the destination bucket and destination slots, so the source cell
passes through unchanged. -/
def omnisketch_merge_buckets_pair (B : Nat) (dst src : Cell) : Cell × Cell :=
  (omnisketch_merge_buckets B dst src, src)

/-- The pair-threaded combine: first component is the updated destination,
second component is the source sketch as the operation leaves it. -/
def omnisketch_combine_pair (dst src : Sketch) : Sketch × Sketch :=
  ({ dst with
      count := dst.count + src.count
      cells := List.zipWith (fun d c => (omnisketch_merge_buckets_pair dst.sampleSize d c).1)
        dst.cells src.cells },
   { src with
      cells := List.zipWith (fun d c => (omnisketch_merge_buckets_pair dst.sampleSize d c).2)
        dst.cells src.cells })

/-! ## Finalizer (`omnisketch_finalize`) -/

/-- The per-cell body of `omnisketch_finalize`: skip sorted cells; for
cells with at least two samples, sort the stored items under `(H_s, item)`,
point `maxIndex` at the end and set `isSorted`. -/
def finalize_cell (c : Cell) : Cell :=
  if c.isSorted then c
  else if 2 ≤ c.sampleCount then
    { c with
      slots := List.insertionSort ile (stored c) ++ c.slots.drop c.sampleCount
      maxIndex := c.sampleCount - 1
      isSorted := true }
  else c

/-- `omnisketch_finalize`. -/
def omnisketch_finalize (s : Sketch) : Sketch :=
  { s with cells := s.cells.map finalize_cell }

/-! ## Estimator (`intersect_items`, `omnisketch_estimate`) -/

/-- `intersect_items`: two-pointer intersection of the running candidate
list with a cell's sample; on item equality keep the item and advance both,
otherwise advance the side with the smaller `H_s` hash. -/
def intersect_items : List Nat → List Nat → List Nat
  | [], _ => []
  | _ :: _, [] => []
  | a :: as', b :: bs' =>
      if a = b then a :: intersect_items as' bs'
      else if Hs a < Hs b then intersect_items as' (b :: bs')
      else intersect_items (a :: as') bs'
  termination_by l1 l2 => l1.length + l2.length

/-- The row loop of `omnisketch_column_estimate`: track the largest
`totalCount` seen and initialize/intersect the candidate list. -/
def estimate_rows (s : Sketch) (column hash : Nat) :
    List Nat → Nat × Option (List Nat) → Nat × Option (List Nat)
  | [], acc => acc
  | i :: rest, acc =>
      let h := xxh32 hash i
      let j := h % s.sketchWidth
      let c := s.cells.getD (SKETCH_BUCKET_INDEX s column i j) (emptyCell s.sampleSize)
      let maxcnt := if acc.1 < c.totalCount then c.totalCount else acc.1
      let items :=
        match acc.2 with
        | none => some (stored c)
        | some l => some (intersect_items l (stored c))
      estimate_rows s column hash rest (maxcnt, items)

/-- The column loop of `omnisketch_estimate`, columns numbered from `i`. -/
def estimate_columns (s : Sketch) : Nat → List Nat → Nat × Option (List Nat) → Nat × Option (List Nat)
  | _, [], acc => acc
  | i, h :: hs, acc =>
      estimate_columns s (i + 1) hs (estimate_rows s i h (List.range s.sketchHeight) acc)

/-- `omnisketch_estimate` on the core data: visit all rows of all queried
columns, then return `maxcnt / sampleSize * nitems` — note the integer
division `maxcnt / sketch->sampleSize` happens before the multiplication
(`int64 / int16` truncates in C even though the result variable `est` is a
`double`). -/
def omnisketch_estimate (s : Sketch) (hashes : List Nat) : Nat :=
  let r := estimate_columns s 0 hashes (0, none)
  let nitems :=
    match r.2 with
    | some l => l.length
    | none => 0
  r.1 / s.sampleSize * nitems

/-! ## Reachable sketches: build traces

A trace records a build history out of the aggregate entry points:
allocation (first `omnisketch_add` call), subsequent `omnisketch_add`
calls, `omnisketch_combine` of two built sketches, and
`omnisketch_finalize`.  `runT` fails where the C code raises an error
(column-count mismatch, structural mismatch). -/

inductive Trace where
  | init (nsketches width height sampleSize itemSize seed : Nat)
  | add (t : Trace) (hashes : List Nat)
  | comb (t1 t2 : Trace)
  | fin (t : Trace)

def runT : Trace → Option Sketch
  | .init C W D B b seed => some (omnisketch_allocate C W D B b seed)
  | .add t hashes =>
      match runT t with
      | none => none
      | some s => if hashes.length = s.numSketches then some (omnisketch_add s hashes) else none
  | .comb t1 t2 =>
      match runT t1, runT t2 with
      | some d, some s => if omnisketch_equals s d then some (omnisketch_combine d s) else none
      | _, _ => none
  | .fin t => (runT t).map omnisketch_finalize

/-- Validity of the allocation parameters appearing in a trace: the sizing
computation in `omnisketch_add` always produces `W ≥ 2` and `B ≥ 1`
(its `(B, b)` loop increments `B` before every exit test), so reachable
sketches have positive width and sample size. -/
def trace_valid : Trace → Bool
  | .init _ W _ B _ _ => 1 ≤ W && 1 ≤ B
  | .add t _ => trace_valid t
  | .comb t1 t2 => trace_valid t1 && trace_valid t2
  | .fin t => trace_valid t

/-! ## Well-formedness of a sketch state

The structural invariants of §3 of the design that the C code maintains
and asserts (`AssertCheckBucket`, `AssertCheckBucketBasic`): slot-array
lengths, `sampleCount ≤ min(totalCount, B)`, zeroed slack slots, a valid
cached maximum, and truthful `isSorted` flags. -/

/-- The largest `H_s` hash of a list of items (0 for the empty list). -/
def hashMax (l : List Nat) : Nat :=
  l.foldr (fun x m => max (Hs x) m) 0

def WFcell (B : Nat) (c : Cell) : Prop :=
  c.slots.length = B ∧
  c.sampleCount ≤ B ∧
  c.sampleCount ≤ c.totalCount ∧
  (c.sampleCount = 0 → c = emptyCell B) ∧
  c.slots.drop c.sampleCount = List.replicate (B - c.sampleCount) 0 ∧
  (0 < c.sampleCount → c.maxIndex < c.sampleCount ∧ c.maxHash = hashMax (stored c)) ∧
  (c.isSorted = true → List.Sorted ile (stored c) ∧ c.maxIndex = c.sampleCount - 1)

instance (B : Nat) (c : Cell) : Decidable (WFcell B c) := by
  unfold WFcell; infer_instance

def WF (s : Sketch) : Prop :=
  s.cells.length = s.numSketches * (s.sketchWidth * s.sketchHeight) ∧
  1 ≤ s.sampleSize ∧
  ∀ c ∈ s.cells, WFcell s.sampleSize c

instance (s : Sketch) : Decidable (WF s) := by
  unfold WF; infer_instance

/-- Per-cell distinctness and 32-bitness of the stored record ids: the user
contract of the design (duplicate ids within a cell are forbidden) plus the
fact that ids are 32-bit values. -/
def WFids (s : Sketch) : Prop :=
  ∀ c ∈ s.cells, (stored c).Nodup ∧ ∀ x ∈ stored c, x < 4294967296

instance (s : Sketch) : Decidable (WFids s) := by
  unfold WFids; infer_instance

/-! ## The `(H_s, item)` order: total, transitive, antisymmetric -/

theorem ile_refl (a : Nat) : ile a a :=
  Or.inr ⟨rfl, Or.inr ⟨rfl, le_refl a⟩⟩

theorem ile_trans {a b c : Nat} (h1 : ile a b) (h2 : ile b c) : ile a c := by
  rcases h1 with h1 | ⟨e1, h1⟩ <;> rcases h2 with h2 | ⟨e2, h2⟩
  · exact Or.inl (by omega)
  · exact Or.inl (by omega)
  · exact Or.inl (by omega)
  · refine Or.inr ⟨by omega, ?_⟩
    rcases h1 with h1 | ⟨f1, h1⟩ <;> rcases h2 with h2 | ⟨f2, h2⟩
    · exact Or.inl (by omega)
    · exact Or.inl (by omega)
    · exact Or.inl (by omega)
    · exact Or.inr ⟨by omega, by omega⟩

theorem ile_total (a b : Nat) : ile a b ∨ ile b a := by
  rcases Nat.lt_trichotomy (Hs a) (Hs b) with h | h | h
  · exact Or.inl (Or.inl h)
  · rcases lt_trichotomy (int32val a) (int32val b) with h' | h' | h'
    · exact Or.inl (Or.inr ⟨h, Or.inl h'⟩)
    · rcases Nat.le_total a b with h'' | h''
      · exact Or.inl (Or.inr ⟨h, Or.inr ⟨h', h''⟩⟩)
      · exact Or.inr (Or.inr ⟨h.symm, Or.inr ⟨h'.symm, h''⟩⟩)
    · exact Or.inr (Or.inr ⟨h.symm, Or.inl h'⟩)
  · exact Or.inr (Or.inl h)

theorem ile_antisymm {a b : Nat} (h1 : ile a b) (h2 : ile b a) : a = b := by
  rcases h1 with h1 | ⟨e1, h1⟩ <;> rcases h2 with h2 | ⟨e2, h2⟩
  · omega
  · omega
  · omega
  · rcases h1 with h1 | ⟨f1, h1⟩ <;> rcases h2 with h2 | ⟨f2, h2⟩
    · omega
    · omega
    · omega
    · omega

instance : IsTotal Nat ile := ⟨ile_total⟩

instance : IsTrans Nat ile := ⟨fun _ _ _ => ile_trans⟩

instance : IsAntisymm Nat ile := ⟨fun _ _ => ile_antisymm⟩

instance : IsRefl Nat ile := ⟨ile_refl⟩

theorem ile_of_not_ile {a b : Nat} (h : ¬ile a b) : ile b a :=
  (ile_total a b).resolve_left h

theorem Hs_le_of_ile {a b : Nat} (h : ile a b) : Hs a ≤ Hs b := by
  rcases h with h | ⟨e, _⟩
  · exact Nat.le_of_lt h
  · exact Nat.le_of_eq e

/-! ## Canonical sorting by `(H_s, item)` -/

def isort (l : List Nat) : List Nat := List.insertionSort ile l

theorem isort_sorted (l : List Nat) : List.Sorted ile (isort l) :=
  List.sorted_insertionSort ile l

theorem isort_perm (l : List Nat) : List.Perm (isort l) l :=
  List.perm_insertionSort ile l

theorem sorted_eq_of_perm {l1 l2 : List Nat} (hp : List.Perm l1 l2) (h1 : List.Sorted ile l1)
    (h2 : List.Sorted ile l2) : l1 = l2 :=
  List.eq_of_perm_of_sorted hp h1 h2

theorem isort_congr {l1 l2 : List Nat} (h : List.Perm l1 l2) : isort l1 = isort l2 :=
  sorted_eq_of_perm ((isort_perm l1).trans (h.trans (isort_perm l2).symm))
    (isort_sorted l1) (isort_sorted l2)

theorem isort_of_sorted {l : List Nat} (h : List.Sorted ile l) : isort l = l :=
  h.insertionSort_eq

theorem isort_length (l : List Nat) : (isort l).length = l.length :=
  (isort_perm l).length_eq

/-! ## The untruncated sorted merge and the truncated merge loop -/

def mergeLe : List Nat → List Nat → List Nat
  | [], ys => ys
  | x :: xs, [] => x :: xs
  | x :: xs, y :: ys =>
      if ile x y then x :: mergeLe xs (y :: ys) else y :: mergeLe (x :: xs) ys
  termination_by l1 l2 => l1.length + l2.length

theorem mergeLe_nil_left (ys : List Nat) : mergeLe [] ys = ys := by
  simp only [mergeLe]

theorem mergeLe_nil_right (xs : List Nat) : mergeLe xs [] = xs := by
  cases xs <;> simp only [mergeLe]

theorem mergeLe_cons_cons (x y : Nat) (xs ys : List Nat) :
    mergeLe (x :: xs) (y :: ys) =
      if ile x y then x :: mergeLe xs (y :: ys) else y :: mergeLe (x :: xs) ys := by
  simp only [mergeLe]

theorem mergeLe_perm : ∀ xs ys : List Nat, List.Perm (mergeLe xs ys) (xs ++ ys) := by
  intro xs
  induction xs with
  | nil => intro ys; rw [mergeLe_nil_left, List.nil_append]
  | cons x xs ihx =>
    intro ys
    induction ys with
    | nil => rw [mergeLe_nil_right, List.append_nil]
    | cons y ys ihy =>
      rw [mergeLe_cons_cons]
      by_cases h : ile x y
      · rw [if_pos h]
        exact (ihx (y :: ys)).cons x
      · rw [if_neg h]
        exact (ihy.cons y).trans List.perm_middle.symm

theorem mergeLe_sorted : ∀ xs ys : List Nat, List.Sorted ile xs → List.Sorted ile ys →
    List.Sorted ile (mergeLe xs ys) := by
  intro xs
  induction xs with
  | nil => intro ys _ hy; rw [mergeLe_nil_left]; exact hy
  | cons x xs ihx =>
    intro ys hx hy
    induction ys with
    | nil => rw [mergeLe_nil_right]; exact hx
    | cons y ys ihy =>
      rw [mergeLe_cons_cons]
      by_cases h : ile x y
      · rw [if_pos h]
        rw [List.sorted_cons]
        refine ⟨?_, ihx (y :: ys) hx.tail hy⟩
        intro b hb
        have hb' := (mergeLe_perm xs (y :: ys)).mem_iff.mp hb
        rcases List.mem_append.mp hb' with hb'' | hb''
        · exact List.rel_of_sorted_cons hx b hb''
        · rcases List.mem_cons.mp hb'' with rfl | hb'''
          · exact h
          · exact ile_trans h (List.rel_of_sorted_cons hy b hb''')
      · rw [if_neg h]
        rw [List.sorted_cons]
        refine ⟨?_, ihy hy.tail⟩
        intro b hb
        have hb' := (mergeLe_perm (x :: xs) ys).mem_iff.mp hb
        have hyx : ile y x := ile_of_not_ile h
        rcases List.mem_append.mp hb' with hb'' | hb''
        · rcases List.mem_cons.mp hb'' with rfl | hb'''
          · exact hyx
          · exact ile_trans hyx (List.rel_of_sorted_cons hx b hb''')
        · exact List.rel_of_sorted_cons hy b hb''

theorem mergeLe_eq_isort_append {xs ys : List Nat} (hx : List.Sorted ile xs)
    (hy : List.Sorted ile ys) : mergeLe xs ys = isort (xs ++ ys) :=
  sorted_eq_of_perm ((mergeLe_perm xs ys).trans (isort_perm (xs ++ ys)).symm)
    (mergeLe_sorted xs ys hx hy) (isort_sorted (xs ++ ys))

theorem mergeLe_length (xs ys : List Nat) : (mergeLe xs ys).length = xs.length + ys.length := by
  have := (mergeLe_perm xs ys).length_eq
  simpa using this

/-- Truncating a merge at `n` ignores everything beyond position `m ≥ n` of
the left input. -/
theorem take_mergeLe_left : ∀ (xs ys : List Nat) (n m : Nat), n ≤ m →
    (mergeLe (xs.take m) ys).take n = (mergeLe xs ys).take n := by
  intro xs
  induction xs with
  | nil => intro ys n m _; rw [List.take_nil]
  | cons x xs ihx =>
    intro ys
    induction ys with
    | nil =>
      intro n m hnm
      rw [mergeLe_nil_right, mergeLe_nil_right, List.take_take, Nat.min_eq_left hnm]
    | cons y ys ihy =>
      intro n m hnm
      cases m with
      | zero =>
        have hn : n = 0 := Nat.le_zero.mp hnm
        subst hn; rfl
      | succ m =>
        rw [List.take_succ_cons, mergeLe_cons_cons, mergeLe_cons_cons]
        by_cases h : ile x y
        · rw [if_pos h, if_pos h]
          cases n with
          | zero => rfl
          | succ n =>
            rw [List.take_succ_cons, List.take_succ_cons,
              ihx (y :: ys) n m (Nat.le_of_succ_le_succ hnm)]
        · rw [if_neg h, if_neg h]
          cases n with
          | zero => rfl
          | succ n =>
            rw [List.take_succ_cons, List.take_succ_cons]
            have := ihy n (m + 1) (by omega)
            rw [List.take_succ_cons] at this
            rw [this]

/-- Truncating a merge at `n` ignores everything beyond position `m ≥ n` of
the right input. -/
theorem take_mergeLe_right : ∀ (xs ys : List Nat) (n m : Nat), n ≤ m →
    (mergeLe xs (ys.take m)).take n = (mergeLe xs ys).take n := by
  intro xs
  induction xs with
  | nil =>
    intro ys n m hnm
    rw [mergeLe_nil_left, mergeLe_nil_left, List.take_take, Nat.min_eq_left hnm]
  | cons x xs ihx =>
    intro ys
    induction ys with
    | nil => intro n m _; rw [List.take_nil]
    | cons y ys ihy =>
      intro n m hnm
      cases m with
      | zero =>
        have hn : n = 0 := Nat.le_zero.mp hnm
        subst hn; rfl
      | succ m =>
        rw [List.take_succ_cons, mergeLe_cons_cons, mergeLe_cons_cons]
        by_cases h : ile x y
        · rw [if_pos h, if_pos h]
          cases n with
          | zero => rfl
          | succ n =>
            rw [List.take_succ_cons, List.take_succ_cons]
            have := ihx (y :: ys) n (m + 1) (by omega)
            rw [List.take_succ_cons] at this
            rw [this]
        · rw [if_neg h, if_neg h]
          cases n with
          | zero => rfl
          | succ n =>
            rw [List.take_succ_cons, List.take_succ_cons,
              ihy n m (Nat.le_of_succ_le_succ hnm)]

theorem merge_loop_eq_take : ∀ (B : Nat) (xs ys : List Nat),
    merge_loop B xs ys = (mergeLe xs ys).take B := by
  intro B
  induction B with
  | zero => intro xs ys; rfl
  | succ B ih =>
    intro xs ys
    match xs, ys with
    | [], [] => simp only [merge_loop, mergeLe_nil_left, List.take_nil]
    | [], y :: ys =>
      rw [merge_loop, mergeLe_nil_left, List.take_succ_cons, ih [] ys, mergeLe_nil_left]
    | x :: xs, [] =>
      rw [merge_loop, mergeLe_nil_right, List.take_succ_cons, ih xs [], mergeLe_nil_right]
    | x :: xs, y :: ys =>
      rw [merge_loop, mergeLe_cons_cons]
      by_cases h : ile x y
      · rw [if_pos h, if_pos h, List.take_succ_cons, ih]
      · rw [if_neg h, if_neg h, List.take_succ_cons, ih]

/-! ## Canonical cells: the normal form produced by a bucket merge -/

theorem hashMax_nil : hashMax [] = 0 := rfl

theorem hashMax_cons (x : Nat) (l : List Nat) : hashMax (x :: l) = max (Hs x) (hashMax l) := rfl

theorem hashMax_perm {l1 l2 : List Nat} (h : List.Perm l1 l2) : hashMax l1 = hashMax l2 := by
  induction h with
  | nil => rfl
  | cons x _ ih => rw [hashMax_cons, hashMax_cons, ih]
  | swap x y l => rw [hashMax_cons, hashMax_cons, hashMax_cons, hashMax_cons]; omega
  | trans _ _ ih1 ih2 => exact ih1.trans ih2

theorem Hs_le_hashMax {l : List Nat} {x : Nat} (h : x ∈ l) : Hs x ≤ hashMax l := by
  induction l with
  | nil => cases h
  | cons y l ih =>
    rw [hashMax_cons]
    rcases List.mem_cons.mp h with rfl | h'
    · omega
    · have := ih h'
      omega

theorem Hs_getLast_sorted : ∀ {l : List Nat} (hne : l ≠ []),
    List.Sorted ile l → Hs (l.getLast hne) = hashMax l := by
  intro l
  induction l with
  | nil => intro hne; exact absurd rfl hne
  | cons x l ih =>
    intro hne hs
    cases l with
    | nil => rw [List.getLast_singleton, hashMax_cons, hashMax_nil, Nat.max_zero]
    | cons y l' =>
      rw [List.getLast_cons (List.cons_ne_nil y l'), hashMax_cons,
        ih (List.cons_ne_nil y l') hs.tail]
      have hmem : (y :: l').getLast (List.cons_ne_nil y l') ∈ y :: l' :=
        List.getLast_mem (List.cons_ne_nil y l')
      have hx := List.rel_of_sorted_cons hs _ hmem
      have := Hs_le_of_ile hx
      have h2 := Hs_le_hashMax hmem
      omega

/-- The cell produced by merging buckets whose inserted items were `ins`:
totals `tc`, the bottom-`B` of `ins` under `(H_s, item)` stored sorted,
slack slots zeroed, metadata canonical. -/
def canonCell (B tc : Nat) (ins : List Nat) : Cell :=
  let st := (isort ins).take B
  { totalCount := tc
    sampleCount := st.length
    maxIndex := st.length - 1
    maxHash := hashMax st
    isSorted := true
    slots := st ++ List.replicate (B - st.length) 0 }

theorem canonCell_congr {ins1 ins2 : List Nat} (B tc : Nat) (h : List.Perm ins1 ins2) :
    canonCell B tc ins1 = canonCell B tc ins2 := by
  simp only [canonCell, isort_congr h]

theorem canonCell_eq_of_take {ins1 ins2 : List Nat} (B tc : Nat)
    (h : (isort ins1).take B = (isort ins2).take B) :
    canonCell B tc ins1 = canonCell B tc ins2 := by
  simp only [canonCell, h]

theorem canonCell_stored (B tc : Nat) (ins : List Nat) :
    stored (canonCell B tc ins) = (isort ins).take B := by
  simp only [canonCell, stored]
  exact List.take_left _ _

theorem canonCell_sampleCount (B tc : Nat) (ins : List Nat) :
    (canonCell B tc ins).sampleCount = min B ins.length := by
  simp only [canonCell, List.length_take, isort_length]

theorem canonCell_sorted (B : Nat) (ins : List Nat) :
    List.Sorted ile ((isort ins).take B) :=
  List.Pairwise.sublist (List.take_sublist B (isort ins)) (isort_sorted ins)

theorem stored_length {B : Nat} {c : Cell} (h1 : c.slots.length = B) (h2 : c.sampleCount ≤ B) :
    (stored c).length = c.sampleCount := by
  rw [stored, List.length_take, h1]
  omega

theorem WFcell_canon {B tc : Nat} {ins : List Nat} (hne : ins ≠ [])
    (htc : min B ins.length ≤ tc) (hB : 0 < B) : WFcell B (canonCell B tc ins) := by
  have hlen : ((isort ins).take B).length = min B ins.length := by
    rw [List.length_take, isort_length]
  have hpos : 0 < min B ins.length := by
    have : 0 < ins.length := List.length_pos.mpr hne
    omega
  have hle : ((isort ins).take B).length ≤ B := by omega
  refine ⟨?_, ?_, ?_, ?_, ?_, ?_, ?_⟩
  · simp only [canonCell, List.length_append, List.length_replicate]
    omega
  · simpa only [canonCell] using hle
  · simpa only [canonCell, hlen] using htc
  · intro h0
    rw [canonCell_sampleCount] at h0
    omega
  · simp only [canonCell]
    rw [List.drop_left]
  · intro _
    refine ⟨?_, ?_⟩
    · simp only [canonCell]; omega
    · rw [canonCell_stored]; rfl
  · intro _
    refine ⟨?_, rfl⟩
    rw [canonCell_stored]
    exact canonCell_sorted B ins

theorem sorted_items_eq_isort {c : Cell}
    (h : c.isSorted = true → List.Sorted ile (stored c)) :
    omnisketch_sorted_items c = isort (stored c) := by
  unfold omnisketch_sorted_items
  by_cases hs : c.isSorted
  · rw [if_pos hs, isort_of_sorted (h hs)]
  · rw [if_neg hs]; rfl

theorem merge_buckets_src_empty {B : Nat} {dst src : Cell} (h : src.sampleCount = 0) :
    omnisketch_merge_buckets B dst src = dst := by
  unfold omnisketch_merge_buckets
  rw [if_pos h]

/-- Normal form of a bucket merge with a nonempty source: the result is the
canonical cell over the concatenated stored items. -/
theorem merge_buckets_canon {B : Nat} {dst src : Cell} (hd : WFcell B dst) (hs : WFcell B src)
    (hne : src.sampleCount ≠ 0) :
    omnisketch_merge_buckets B dst src =
      canonCell B (dst.totalCount + src.totalCount) (stored dst ++ stored src) := by
  obtain ⟨hdlen, hdscB, _, _, hddrop, _, hdflag⟩ := hd
  obtain ⟨hslen, hsscB, _, _, _, _, hsflag⟩ := hs
  have hdstl : (stored dst).length = dst.sampleCount := stored_length hdlen hdscB
  have hsstl : (stored src).length = src.sampleCount := stored_length hslen hsscB
  have hB : 0 < B := by omega
  -- the merged prefix
  have hmerged : merge_loop B (omnisketch_sorted_items dst) (omnisketch_sorted_items src) =
      (isort (stored dst ++ stored src)).take B := by
    rw [sorted_items_eq_isort (fun hf => (hdflag hf).1),
      sorted_items_eq_isort (fun hf => (hsflag hf).1),
      merge_loop_eq_take,
      mergeLe_eq_isort_append (isort_sorted (stored dst)) (isort_sorted (stored src)),
      isort_congr (List.Perm.append (isort_perm (stored dst)) (isort_perm (stored src)))]
  have hstlen : ((isort (stored dst ++ stored src)).take B).length =
      min B (dst.sampleCount + src.sampleCount) := by
    rw [List.length_take, isort_length, List.length_append, hdstl, hsstl]
  have hkpos : 0 < ((isort (stored dst ++ stored src)).take B).length := by
    rw [hstlen]; omega
  have hkd : dst.sampleCount ≤ ((isort (stored dst ++ stored src)).take B).length := by
    rw [hstlen]; omega
  have hkB : ((isort (stored dst ++ stored src)).take B).length ≤ B := by
    rw [hstlen]; omega
  have hne' : (isort (stored dst ++ stored src)).take B ≠ [] :=
    List.ne_nil_of_length_pos hkpos
  unfold omnisketch_merge_buckets
  rw [if_neg hne]
  simp only [hmerged]
  unfold canonCell
  simp only []
  congr 1
  · -- maxHash : getLast of the sorted merged prefix is its hashMax
    rw [List.getLast?_eq_getLast _ hne']
    exact Hs_getLast_sorted hne' (canonCell_sorted B (stored dst ++ stored src))
  · -- slots : the leftover destination slots beyond the merged prefix are zeros
    congr 1
    have h1 : dst.slots.drop ((isort (stored dst ++ stored src)).take B).length =
        List.drop (((isort (stored dst ++ stored src)).take B).length - dst.sampleCount)
          (dst.slots.drop dst.sampleCount) := by
      rw [List.drop_drop]
      congr 1
      omega
    rw [h1, hddrop, List.drop_replicate]
    congr 1
    omega

/-! ## Bottom-k absorption: truncating before a further merge is harmless -/

theorem take_isort_absorb_left (B : Nat) (u v : List Nat) :
    (isort ((isort u).take B ++ v)).take B = (isort (u ++ v)).take B := by
  have h1 : isort ((isort u).take B ++ v) = mergeLe ((isort u).take B) (isort v) := by
    rw [mergeLe_eq_isort_append (canonCell_sorted B u) (isort_sorted v)]
    exact (isort_congr (List.Perm.append (List.Perm.refl _) (isort_perm v))).symm
  rw [h1, take_mergeLe_left (isort u) (isort v) B B (le_refl B),
    mergeLe_eq_isort_append (isort_sorted u) (isort_sorted v),
    isort_congr (List.Perm.append (isort_perm u) (isort_perm v))]

theorem take_isort_absorb_right (B : Nat) (u v : List Nat) :
    (isort (u ++ (isort v).take B)).take B = (isort (u ++ v)).take B := by
  have h1 : isort (u ++ (isort v).take B) = mergeLe (isort u) ((isort v).take B) := by
    rw [mergeLe_eq_isort_append (isort_sorted u) (canonCell_sorted B v)]
    exact (isort_congr (List.Perm.append (isort_perm u) (List.Perm.refl _))).symm
  rw [h1, take_mergeLe_right (isort u) (isort v) B B (le_refl B),
    mergeLe_eq_isort_append (isort_sorted u) (isort_sorted v),
    isort_congr (List.Perm.append (isort_perm u) (isort_perm v))]

/-! ## Named projections of `WFcell` -/

theorem WFcell.len {B : Nat} {c : Cell} (h : WFcell B c) : c.slots.length = B := h.1

theorem WFcell.scB {B : Nat} {c : Cell} (h : WFcell B c) : c.sampleCount ≤ B := h.2.1

theorem WFcell.sctc {B : Nat} {c : Cell} (h : WFcell B c) : c.sampleCount ≤ c.totalCount :=
  h.2.2.1

theorem WFcell.empty0 {B : Nat} {c : Cell} (h : WFcell B c) :
    c.sampleCount = 0 → c = emptyCell B := h.2.2.2.1

theorem WFcell.drop0 {B : Nat} {c : Cell} (h : WFcell B c) :
    c.slots.drop c.sampleCount = List.replicate (B - c.sampleCount) 0 := h.2.2.2.2.1

theorem WFcell.maxOK {B : Nat} {c : Cell} (h : WFcell B c) :
    0 < c.sampleCount → c.maxIndex < c.sampleCount ∧ c.maxHash = hashMax (stored c) :=
  h.2.2.2.2.2.1

theorem WFcell.flagOK {B : Nat} {c : Cell} (h : WFcell B c) :
    c.isSorted = true → List.Sorted ile (stored c) ∧ c.maxIndex = c.sampleCount - 1 :=
  h.2.2.2.2.2.2

theorem WFcell.storedLen {B : Nat} {c : Cell} (h : WFcell B c) :
    (stored c).length = c.sampleCount :=
  stored_length h.len h.scB

theorem WFcell.Bpos {B : Nat} {c : Cell} (h : WFcell B c) (hne : c.sampleCount ≠ 0) : 0 < B := by
  have := h.scB; omega

theorem WFcell.storedNe {B : Nat} {c : Cell} (h : WFcell B c) (hne : c.sampleCount ≠ 0) :
    stored c ≠ [] := by
  apply List.ne_nil_of_length_pos
  rw [h.storedLen]
  omega

theorem stored_emptyCell (B : Nat) : stored (emptyCell B) = [] := by
  simp [stored, emptyCell]

theorem WFcell.tc0 {B : Nat} {c : Cell} (h : WFcell B c) (h0 : c.sampleCount = 0) :
    c.totalCount = 0 := by
  rw [h.empty0 h0]; rfl

theorem WFcell.stored0 {B : Nat} {c : Cell} (h : WFcell B c) (h0 : c.sampleCount = 0) :
    stored c = [] := by
  rw [h.empty0 h0]; exact stored_emptyCell B

/-- Well-formedness of the canonical cell produced by a merge whose inputs
satisfy `WFcell`. -/
theorem WFcell_merge_canon {B : Nat} {d s : Cell} (hd : WFcell B d) (hs : WFcell B s)
    (hne : s.sampleCount ≠ 0) :
    WFcell B (canonCell B (d.totalCount + s.totalCount) (stored d ++ stored s)) := by
  refine WFcell_canon ?_ ?_ (hs.Bpos hne)
  · intro h
    exact hs.storedNe hne (List.append_eq_nil.mp h).2
  · rw [List.length_append, hd.storedLen, hs.storedLen]
    have h1 := hd.sctc
    have h2 := hs.sctc
    omega

theorem canon_sc_ne {B tc : Nat} {ins : List Nat} (hB : 0 < B) (hne : ins ≠ []) :
    (canonCell B tc ins).sampleCount ≠ 0 := by
  rw [canonCell_sampleCount]
  have : 0 < ins.length := List.length_pos.mpr hne
  omega

/-! ## Cell-level associativity of the bucket merge -/

theorem merge3_assoc {B : Nat} {a b c : Cell} (ha : WFcell B a) (hb : WFcell B b)
    (hc : WFcell B c) :
    omnisketch_merge_buckets B (omnisketch_merge_buckets B a b) c =
      omnisketch_merge_buckets B a (omnisketch_merge_buckets B b c) := by
  by_cases h2 : b.sampleCount = 0
  · rw [merge_buckets_src_empty h2]
    by_cases h3 : c.sampleCount = 0
    · rw [merge_buckets_src_empty h3, merge_buckets_src_empty h3, merge_buckets_src_empty h2]
    · rw [merge_buckets_canon ha hc h3, merge_buckets_canon hb hc h3,
        merge_buckets_canon ha (WFcell_merge_canon hb hc h3)
          (canon_sc_ne (hc.Bpos h3) (fun h => hc.storedNe h3 (List.append_eq_nil.mp h).2)),
        canonCell_stored, hb.tc0 h2, hb.stored0 h2]
      simp only [List.nil_append, Nat.zero_add]
      exact (canonCell_eq_of_take _ _ (take_isort_absorb_right B (stored a) (stored c))).symm
  · by_cases h3 : c.sampleCount = 0
    · rw [merge_buckets_src_empty h3, merge_buckets_src_empty h3]
    · have hne_ab : stored a ++ stored b ≠ [] :=
        fun h => hb.storedNe h2 (List.append_eq_nil.mp h).2
      have hne_bc : stored b ++ stored c ≠ [] :=
        fun h => hc.storedNe h3 (List.append_eq_nil.mp h).2
      rw [merge_buckets_canon ha hb h2, merge_buckets_canon hb hc h3,
        merge_buckets_canon (WFcell_merge_canon ha hb h2) hc h3,
        merge_buckets_canon ha (WFcell_merge_canon hb hc h3)
          (canon_sc_ne (hc.Bpos h3) hne_bc),
        canonCell_stored, canonCell_stored]
      have hL := canonCell_eq_of_take B (a.totalCount + b.totalCount + c.totalCount)
        (take_isort_absorb_left B (stored a ++ stored b) (stored c))
      have hR := canonCell_eq_of_take B (a.totalCount + (b.totalCount + c.totalCount))
        (take_isort_absorb_right B (stored a) (stored b ++ stored c))
      have hfin : canonCell B (a.totalCount + b.totalCount + c.totalCount)
            (List.take B (isort (stored a ++ stored b)) ++ stored c) =
          canonCell B (a.totalCount + (b.totalCount + c.totalCount))
            (stored a ++ List.take B (isort (stored b ++ stored c))) := by
        rw [hL, hR, List.append_assoc, Nat.add_assoc]
      exact hfin

/-! ## Agreement of cells up to the `isSorted` flag of single-sample cells -/

/-- Two cells agree byte-for-byte except possibly in the `isSorted` flag
when they hold exactly one sample. -/
def cellAgree (x y : Cell) : Prop :=
  x.totalCount = y.totalCount ∧ x.sampleCount = y.sampleCount ∧ x.maxIndex = y.maxIndex ∧
  x.maxHash = y.maxHash ∧ x.slots = y.slots ∧ (x.sampleCount ≠ 1 → x.isSorted = y.isSorted)

instance (x y : Cell) : Decidable (cellAgree x y) := by
  unfold cellAgree; infer_instance

theorem cellAgree_refl (x : Cell) : cellAgree x x :=
  ⟨rfl, rfl, rfl, rfl, rfl, fun _ => rfl⟩

theorem cellAgree_of_eq {x y : Cell} (h : x = y) : cellAgree x y := by
  rw [h]; exact cellAgree_refl y

theorem cellAgree_common {x y z : Cell} (h1 : cellAgree x z) (h2 : cellAgree y z) :
    cellAgree x y := by
  obtain ⟨a1, a2, a3, a4, a5, a6⟩ := h1
  obtain ⟨b1, b2, b3, b4, b5, b6⟩ := h2
  refine ⟨a1.trans b1.symm, a2.trans b2.symm, a3.trans b3.symm, a4.trans b4.symm,
    a5.trans b5.symm, ?_⟩
  intro hne
  have hyne : y.sampleCount ≠ 1 := by rw [b2, ← a2]; exact hne
  rw [a6 hne, b6 hyne]

/-! ## `finalize_cell` in terms of canonical cells -/

theorem finalize_cell_canon (B tc : Nat) (ins : List Nat) :
    finalize_cell (canonCell B tc ins) = canonCell B tc ins := by
  unfold finalize_cell
  rw [if_pos]
  rfl

theorem finalize_cell_agree_canon {B : Nat} {c : Cell} (hc : WFcell B c)
    (hpos : 0 < c.sampleCount) :
    cellAgree (finalize_cell c) (canonCell B c.totalCount (stored c)) := by
  have hst : (isort (stored c)).take B = isort (stored c) :=
    List.take_of_length_le (by rw [isort_length, hc.storedLen]; exact hc.scB)
  have hstlen : (isort (stored c)).length = c.sampleCount := by
    rw [isort_length, hc.storedLen]
  have hmh : c.maxHash = hashMax ((isort (stored c)).take B) := by
    rw [hst, hashMax_perm (isort_perm (stored c))]
    exact (hc.maxOK hpos).2
  by_cases hf : c.isSorted
  · -- already sorted: finalize skips, the cell is itself canonical
    have hsect := hc.flagOK hf
    have hiso : isort (stored c) = stored c := isort_of_sorted hsect.1
    unfold finalize_cell
    rw [if_pos hf]
    refine ⟨rfl, ?_, ?_, hmh, ?_, fun _ => ?_⟩
    · rw [canonCell_sampleCount, hc.storedLen]
      have := hc.scB
      omega
    · show c.maxIndex = ((isort (stored c)).take B).length - 1
      rw [hst, hstlen]
      exact hsect.2
    · show c.slots = (isort (stored c)).take B ++ List.replicate (B - ((isort (stored c)).take B).length) 0
      rw [hst, hstlen, hiso, ← hc.drop0]
      exact (List.take_append_drop c.sampleCount c.slots).symm
    · rw [hf]; rfl
  · have hfF : c.isSorted = false := Bool.not_eq_true _ ▸ eq_false_of_ne_true hf
    by_cases h2 : 2 ≤ c.sampleCount
    · -- the finalizer sorts the cell
      unfold finalize_cell
      rw [if_neg hf, if_pos h2]
      refine ⟨rfl, ?_, ?_, hmh, ?_, fun _ => rfl⟩
      · show c.sampleCount = ((isort (stored c)).take B).length
        rw [hst, hstlen]
      · show c.sampleCount - 1 = ((isort (stored c)).take B).length - 1
        rw [hst, hstlen]
      · show List.insertionSort ile (stored c) ++ c.slots.drop c.sampleCount =
          (isort (stored c)).take B ++ List.replicate (B - ((isort (stored c)).take B).length) 0
        rw [hst, hstlen, hc.drop0]
        rfl
    · -- a single-sample unsorted cell: finalize leaves it; only the flag differs
      have h1 : c.sampleCount = 1 := by omega
      obtain ⟨x, hx⟩ := List.length_eq_one.mp (hc.storedLen.trans h1)
      have hiso : isort (stored c) = stored c := by
        rw [hx]; exact isort_of_sorted (List.sorted_singleton x)
      unfold finalize_cell
      rw [if_neg hf, if_neg (by omega)]
      refine ⟨rfl, ?_, ?_, hmh, ?_, fun hne => absurd h1 hne⟩
      · rw [canonCell_sampleCount, hc.storedLen]
        have := hc.scB
        omega
      · show c.maxIndex = ((isort (stored c)).take B).length - 1
        rw [hst, hstlen, h1]
        have := (hc.maxOK hpos).1
        omega
      · show c.slots = (isort (stored c)).take B ++ List.replicate (B - ((isort (stored c)).take B).length) 0
        rw [hst, hstlen, hiso, ← hc.drop0]
        exact (List.take_append_drop c.sampleCount c.slots).symm

/-! ## Any association/rotation of a triple merge agrees after finalize -/

theorem fin_merge3_canon {B : Nat} {a b c : Cell} (ha : WFcell B a) (hb : WFcell B b)
    (hc : WFcell B c)
    (hsum : a.sampleCount ≠ 0 ∨ b.sampleCount ≠ 0 ∨ c.sampleCount ≠ 0) :
    cellAgree
      (finalize_cell (omnisketch_merge_buckets B (omnisketch_merge_buckets B a b) c))
      (canonCell B (a.totalCount + b.totalCount + c.totalCount)
        (stored a ++ stored b ++ stored c)) := by
  by_cases h2 : b.sampleCount = 0
  · by_cases h3 : c.sampleCount = 0
    · rw [merge_buckets_src_empty h2, merge_buckets_src_empty h3]
      have hpos : 0 < a.sampleCount := by
        rcases hsum with h | h | h
        · omega
        · exact absurd h2 h
        · exact absurd h3 h
      have hfin := finalize_cell_agree_canon ha hpos
      rw [hb.tc0 h2, hc.tc0 h3, hb.stored0 h2, hc.stored0 h3]
      simpa using hfin
    · rw [merge_buckets_src_empty h2, merge_buckets_canon ha hc h3, finalize_cell_canon]
      apply cellAgree_of_eq
      rw [hb.tc0 h2, hb.stored0 h2]
      simp
  · by_cases h3 : c.sampleCount = 0
    · rw [merge_buckets_canon ha hb h2, merge_buckets_src_empty h3, finalize_cell_canon]
      apply cellAgree_of_eq
      rw [hc.tc0 h3, hc.stored0 h3]
      simp
    · rw [merge_buckets_canon ha hb h2,
        merge_buckets_canon (WFcell_merge_canon ha hb h2) hc h3, canonCell_stored,
        finalize_cell_canon]
      apply cellAgree_of_eq
      have hres := canonCell_eq_of_take B (a.totalCount + b.totalCount + c.totalCount)
        (take_isort_absorb_left B (stored a ++ stored b) (stored c))
      exact hres

theorem fin_merge3_agree {B : Nat} {a b c : Cell} (ha : WFcell B a) (hb : WFcell B b)
    (hc : WFcell B c) :
    cellAgree
      (finalize_cell (omnisketch_merge_buckets B (omnisketch_merge_buckets B a b) c))
      (finalize_cell (omnisketch_merge_buckets B (omnisketch_merge_buckets B c a) b)) := by
  by_cases hall : a.sampleCount = 0 ∧ b.sampleCount = 0 ∧ c.sampleCount = 0
  · obtain ⟨h1, h2, h3⟩ := hall
    rw [merge_buckets_src_empty h2, merge_buckets_src_empty h3,
      merge_buckets_src_empty h1, merge_buckets_src_empty h2,
      ha.empty0 h1, hc.empty0 h3]
    exact cellAgree_refl _
  · have hsum : a.sampleCount ≠ 0 ∨ b.sampleCount ≠ 0 ∨ c.sampleCount ≠ 0 := by tauto
    have hsum' : c.sampleCount ≠ 0 ∨ a.sampleCount ≠ 0 ∨ b.sampleCount ≠ 0 := by tauto
    have hL := fin_merge3_canon ha hb hc hsum
    have hR := fin_merge3_canon hc ha hb hsum'
    have htc : c.totalCount + a.totalCount + b.totalCount =
        a.totalCount + b.totalCount + c.totalCount := by omega
    have hperm : List.Perm (stored c ++ stored a ++ stored b)
        (stored a ++ stored b ++ stored c) := by
      rw [List.append_assoc]
      exact List.perm_append_comm
    rw [htc, canonCell_congr _ _ hperm] at hR
    exact cellAgree_common hL hR

/-! ## Sketch-level agreement and the combine associativity/rotation result -/

def cellsAgree : List Cell → List Cell → Prop
  | [], [] => True
  | x :: xs, y :: ys => cellAgree x y ∧ cellsAgree xs ys
  | _ :: _, [] => False
  | [], _ :: _ => False

def cellsAgree_dec : ∀ l1 l2 : List Cell, Decidable (cellsAgree l1 l2)
  | [], [] => .isTrue trivial
  | [], _ :: _ => .isFalse fun h => h
  | _ :: _, [] => .isFalse fun h => h
  | x :: xs, y :: ys =>
      have : Decidable (cellsAgree xs ys) := cellsAgree_dec xs ys
      inferInstanceAs (Decidable (cellAgree x y ∧ cellsAgree xs ys))

instance (l1 l2 : List Cell) : Decidable (cellsAgree l1 l2) := cellsAgree_dec l1 l2

/-- Two sketches agree byte-for-byte except possibly in the `seed` header
field and in the `isSorted` flag of cells holding exactly one sample. -/
def sketchAgreeExceptSeed (x y : Sketch) : Prop :=
  x.numSketches = y.numSketches ∧ x.sketchWidth = y.sketchWidth ∧
  x.sketchHeight = y.sketchHeight ∧ x.sampleSize = y.sampleSize ∧
  x.itemSize = y.itemSize ∧ x.count = y.count ∧ cellsAgree x.cells y.cells

instance (x y : Sketch) : Decidable (sketchAgreeExceptSeed x y) := by
  unfold sketchAgreeExceptSeed; infer_instance

/-- Disjointness of the id sets stored by corresponding cells of two
sketches (the "disjoint ID spaces" precondition of the design's P3). -/
def disjointIds (x y : Sketch) : Prop :=
  ∀ p ∈ x.cells.zip y.cells, ∀ v ∈ stored p.1, v ∉ stored p.2

instance (x y : Sketch) : Decidable (disjointIds x y) := by
  unfold disjointIds; infer_instance

theorem zipWith_merge_assoc (B : Nat) : ∀ as bs cs : List Cell,
    (∀ x ∈ as, WFcell B x) → (∀ x ∈ bs, WFcell B x) → (∀ x ∈ cs, WFcell B x) →
    List.zipWith (omnisketch_merge_buckets B)
      (List.zipWith (omnisketch_merge_buckets B) as bs) cs =
    List.zipWith (omnisketch_merge_buckets B) as
      (List.zipWith (omnisketch_merge_buckets B) bs cs) := by
  intro as
  induction as with
  | nil => intro bs cs _ _ _; rfl
  | cons a as ih =>
    intro bs cs hA hB hC
    cases bs with
    | nil => rfl
    | cons b bs =>
      cases cs with
      | nil => rfl
      | cons c cs =>
        simp only [List.zipWith_cons_cons]
        rw [merge3_assoc (hA a (List.mem_cons_self a as)) (hB b (List.mem_cons_self b bs))
            (hC c (List.mem_cons_self c cs)),
          ih bs cs (fun x hx => hA x (List.mem_cons_of_mem a hx))
            (fun x hx => hB x (List.mem_cons_of_mem b hx))
            (fun x hx => hC x (List.mem_cons_of_mem c hx))]

theorem cellsAgree_fin3 (B : Nat) : ∀ as bs cs : List Cell,
    as.length = bs.length → as.length = cs.length →
    (∀ x ∈ as, WFcell B x) → (∀ x ∈ bs, WFcell B x) → (∀ x ∈ cs, WFcell B x) →
    cellsAgree
      (List.map finalize_cell (List.zipWith (omnisketch_merge_buckets B)
        (List.zipWith (omnisketch_merge_buckets B) as bs) cs))
      (List.map finalize_cell (List.zipWith (omnisketch_merge_buckets B)
        (List.zipWith (omnisketch_merge_buckets B) cs as) bs)) := by
  intro as
  induction as with
  | nil =>
    intro bs cs h1 h2 _ _ _
    have hb : bs = [] := List.length_eq_zero.mp h1.symm
    have hc : cs = [] := List.length_eq_zero.mp h2.symm
    subst hb; subst hc
    trivial
  | cons a as ih =>
    intro bs cs h1 h2 hA hB hC
    cases bs with
    | nil => simp at h1
    | cons b bs =>
      cases cs with
      | nil => simp at h2
      | cons c cs =>
        simp only [List.zipWith_cons_cons, List.map_cons]
        refine ⟨fin_merge3_agree (hA a (List.mem_cons_self a as))
          (hB b (List.mem_cons_self b bs)) (hC c (List.mem_cons_self c cs)), ?_⟩
        exact ih bs cs (by simpa using h1) (by simpa using h2)
          (fun x hx => hA x (List.mem_cons_of_mem a hx))
          (fun x hx => hB x (List.mem_cons_of_mem b hx))
          (fun x hx => hC x (List.mem_cons_of_mem c hx))

theorem equals_fields {x y : Sketch} (h : omnisketch_equals x y = true) :
    x.numSketches = y.numSketches ∧ x.sketchHeight = y.sketchHeight ∧
    x.sketchWidth = y.sketchWidth ∧ x.sampleSize = y.sampleSize ∧ x.itemSize = y.itemSize := by
  simp only [omnisketch_equals, Bool.and_eq_true, beq_iff_eq] at h
  tauto

/-- C3 (amended): for structurally equal well-formed sketches with pairwise
disjoint ID spaces, `combine(combine(A,B),C)` and `combine(A,combine(B,C))`
are byte-identical after finalize, and `combine(combine(C,A),B)` agrees
with them after finalize on every byte except the `seed` header field and
the `is_sorted` flag of cells holding exactly one sample. -/
theorem C3_combine_assoc_rotation (A B C : Sketch) (hwA : WF A) (hwB : WF B) (hwC : WF C)
    (hBA : omnisketch_equals A B = true) (hCA : omnisketch_equals A C = true)
    (_hdAB : disjointIds A B) (_hdAC : disjointIds A C) (_hdBC : disjointIds B C) :
    omnisketch_finalize (omnisketch_combine (omnisketch_combine A B) C) =
      omnisketch_finalize (omnisketch_combine A (omnisketch_combine B C)) ∧
    sketchAgreeExceptSeed
      (omnisketch_finalize (omnisketch_combine (omnisketch_combine A B) C))
      (omnisketch_finalize (omnisketch_combine (omnisketch_combine C A) B)) := by
  obtain ⟨e1, e2, e3, e4, e5⟩ := equals_fields hBA
  obtain ⟨f1, f2, f3, f4, f5⟩ := equals_fields hCA
  obtain ⟨lA, _, wfA⟩ := hwA
  obtain ⟨lB, _, wfB⟩ := hwB
  obtain ⟨lC, _, wfC⟩ := hwC
  have wfB' : ∀ x ∈ B.cells, WFcell A.sampleSize x := by rw [e4]; exact wfB
  have wfC' : ∀ x ∈ C.cells, WFcell A.sampleSize x := by rw [f4]; exact wfC
  have hlenAB : A.cells.length = B.cells.length := by
    rw [lA, lB, e1, e2, e3]
  have hlenAC : A.cells.length = C.cells.length := by
    rw [lA, lC, f1, f2, f3]
  constructor
  · simp only [omnisketch_finalize, omnisketch_combine]
    congr 1
    · omega
    · rw [← e4]
      rw [zipWith_merge_assoc A.sampleSize A.cells B.cells C.cells wfA wfB' wfC']
  · refine ⟨f1, f3, f2, f4, f5, by show A.count + B.count + C.count = C.count + A.count + B.count; omega, ?_⟩
    show cellsAgree
      (List.map finalize_cell (List.zipWith (omnisketch_merge_buckets A.sampleSize)
        (List.zipWith (omnisketch_merge_buckets A.sampleSize) A.cells B.cells) C.cells))
      (List.map finalize_cell (List.zipWith (omnisketch_merge_buckets C.sampleSize)
        (List.zipWith (omnisketch_merge_buckets C.sampleSize) C.cells A.cells) B.cells))
    rw [← f4]
    exact cellsAgree_fin3 A.sampleSize A.cells B.cells C.cells hlenAB hlenAC wfA wfB' wfC'

/-! ## Finalize: idempotence and the sortedness it establishes -/

theorem finalize_cell_idem (c : Cell) : finalize_cell (finalize_cell c) = finalize_cell c := by
  by_cases hf : c.isSorted
  · have h1 : finalize_cell c = c := by unfold finalize_cell; rw [if_pos hf]
    rw [h1, h1]
  · by_cases h2 : 2 ≤ c.sampleCount
    · have h1 : finalize_cell c =
          { c with
            slots := List.insertionSort ile (stored c) ++ c.slots.drop c.sampleCount
            maxIndex := c.sampleCount - 1
            isSorted := true } := by
        unfold finalize_cell; rw [if_neg hf, if_pos h2]
      rw [h1]
      unfold finalize_cell
      rw [if_pos rfl]
    · have h1 : finalize_cell c = c := by unfold finalize_cell; rw [if_neg hf, if_neg h2]
      rw [h1, h1]

theorem omnisketch_finalize_idem (s : Sketch) :
    omnisketch_finalize (omnisketch_finalize s) = omnisketch_finalize s := by
  simp only [omnisketch_finalize, List.map_map]
  congr 1
  exact List.map_congr_left (fun c _ => finalize_cell_idem c)

theorem finalize_cell_sc (c : Cell) : (finalize_cell c).sampleCount = c.sampleCount := by
  unfold finalize_cell
  split_ifs <;> rfl

theorem ilt_of_ile_ne {a b : Nat} (h : ile a b) (hne : a ≠ b) (ha : a < 4294967296)
    (hb : b < 4294967296) : ilt a b := by
  rcases h with h | ⟨e, h⟩
  · exact Or.inl h
  · rcases h with h | ⟨e2, _⟩
    · exact Or.inr ⟨e, h⟩
    · exfalso
      apply hne
      unfold int32val at e2
      rw [Nat.mod_eq_of_lt ha, Nat.mod_eq_of_lt hb] at e2
      split_ifs at e2 <;> omega

theorem pairwise_ilt_of_sorted_nodup {l : List Nat} (hs : List.Sorted ile l) (hn : l.Nodup)
    (hb : ∀ x ∈ l, x < 4294967296) : List.Pairwise ilt l := by
  induction l with
  | nil => exact List.Pairwise.nil
  | cons x l ih =>
    rw [List.pairwise_cons]
    refine ⟨?_, ih hs.tail hn.tail (fun y hy => hb y (List.mem_cons_of_mem x hy))⟩
    intro y hy
    exact ilt_of_ile_ne (List.rel_of_sorted_cons hs y hy)
      (fun hxy => (List.nodup_cons.mp hn).1 (hxy ▸ hy))
      (hb x (List.mem_cons_self x l)) (hb y (List.mem_cons_of_mem x hy))

theorem finalize_cell_spec {B : Nat} {c0 : Cell} (hw : WFcell B c0)
    (hn : (stored c0).Nodup) (hb : ∀ x ∈ stored c0, x < 4294967296)
    (h2 : 2 ≤ c0.sampleCount) :
    (finalize_cell c0).isSorted = true ∧ List.Pairwise ilt (stored (finalize_cell c0)) ∧
      (finalize_cell c0).maxIndex = (finalize_cell c0).sampleCount - 1 := by
  by_cases hf : c0.isSorted
  · have h1 : finalize_cell c0 = c0 := by unfold finalize_cell; rw [if_pos hf]
    rw [h1]
    obtain ⟨hsort, hmi⟩ := hw.flagOK hf
    exact ⟨hf, pairwise_ilt_of_sorted_nodup hsort hn hb, hmi⟩
  · have h1 : finalize_cell c0 =
        { c0 with
          slots := List.insertionSort ile (stored c0) ++ c0.slots.drop c0.sampleCount
          maxIndex := c0.sampleCount - 1
          isSorted := true } := by
      unfold finalize_cell; rw [if_neg hf, if_pos h2]
    rw [h1]
    refine ⟨rfl, ?_, rfl⟩
    show List.Pairwise ilt (List.take c0.sampleCount
      (List.insertionSort ile (stored c0) ++ c0.slots.drop c0.sampleCount))
    have hlen : (List.insertionSort ile (stored c0)).length = c0.sampleCount := by
      rw [List.length_insertionSort, hw.storedLen]
    rw [← hlen, List.take_left]
    exact pairwise_ilt_of_sorted_nodup (isort_sorted (stored c0))
      ((isort_perm (stored c0)).nodup_iff.mpr hn)
      (fun x hx => hb x ((isort_perm (stored c0)).mem_iff.mp hx))

/-! ## Count conservation and sample-nonemptiness along build traces -/

/-- The row sum of `totalCount` over the cells `(a, i, j)`, `j < W`, of a
cell list laid out with width `W` and height `D`. -/
def rowTotalC (W D : Nat) (cells : List Cell) (a i : Nat) : Nat :=
  ((List.range W).map
    (fun j => (cells.getD (a * (W * D) + i * W + j) (emptyCell 0)).totalCount)).sum

/-- P1's row sum for a sketch: `Σ_j buckets[a,i,j].totalCount`. -/
def rowTotal (s : Sketch) (a i : Nat) : Nat :=
  rowTotalC s.sketchWidth s.sketchHeight s.cells a i

theorem getD_set_ne (l : List Cell) (i n : Nat) (a d : Cell) (h : i ≠ n) :
    (l.set i a).getD n d = l.getD n d := by
  rw [List.getD_eq_getElem?_getD, List.getD_eq_getElem?_getD, List.getElem?_set_ne h]

theorem getD_set_self (l : List Cell) (i : Nat) (a d : Cell) (h : i < l.length) :
    (l.set i a).getD i d = a := by
  rw [List.getD_eq_getElem?_getD, List.getElem?_set_self h]
  rfl

theorem lin_index_inj {W D a i j a' i' j' : Nat} (hj : j < W) (hj' : j' < W) (hi : i < D)
    (hi' : i' < D) (h : a * (W * D) + i * W + j = a' * (W * D) + i' * W + j') :
    a = a' ∧ i = i' ∧ j = j' := by
  have hW : 0 < W := by omega
  have hD : 0 < D := by omega
  have key : ∀ x y : Nat, x * (W * D) + y * W = W * (x * D + y) := by intro x y; ring
  have e1 : W * (a * D + i) + j = W * (a' * D + i') + j' := by
    rw [← key a i, ← key a' i']
    exact h
  have ej : j = j' := by
    have t1 : (W * (a * D + i) + j) % W = j % W := Nat.mul_add_mod W _ j
    have t2 : (W * (a' * D + i') + j') % W = j' % W := Nat.mul_add_mod W _ j'
    rw [e1, t2] at t1
    rw [Nat.mod_eq_of_lt hj, Nat.mod_eq_of_lt hj'] at t1
    omega
  have e2 : a * D + i = a' * D + i' := by
    have t1 : (W * (a * D + i) + j) / W = a * D + i + j / W := Nat.mul_add_div hW _ j
    have t2 : (W * (a' * D + i') + j') / W = a' * D + i' + j' / W := Nat.mul_add_div hW _ j'
    rw [e1, t2] at t1
    rw [Nat.div_eq_of_lt hj, Nat.div_eq_of_lt hj'] at t1
    omega
  have e3 : D * a + i = D * a' + i' := by
    rw [Nat.mul_comm D a, Nat.mul_comm D a']
    exact e2
  have ei : i = i' := by
    have t1 : (D * a + i) % D = i % D := Nat.mul_add_mod D a i
    have t2 : (D * a' + i') % D = i' % D := Nat.mul_add_mod D a' i'
    rw [e3, t2] at t1
    rw [Nat.mod_eq_of_lt hi, Nat.mod_eq_of_lt hi'] at t1
    omega
  have ea : a = a' := by
    have t1 : (D * a + i) / D = a + i / D := Nat.mul_add_div hD a i
    have t2 : (D * a' + i') / D = a' + i' / D := Nat.mul_add_div hD a' i'
    rw [e3, t2] at t1
    rw [Nat.div_eq_of_lt hi, Nat.div_eq_of_lt hi'] at t1
    omega
  exact ⟨ea, ei, ej⟩

theorem lin_index_lt {W D C a i j : Nat} (ha : a < C) (hi : i < D) (hj : j < W) :
    a * (W * D) + i * W + j < C * (W * D) := by
  have h1 : i * W + j < W * D := by
    have h2 : i * W + W ≤ D * W := by
      have := Nat.mul_le_mul_right W (Nat.succ_le_of_lt hi)
      simpa [Nat.succ_mul] using this
    have h3 : W * D = D * W := Nat.mul_comm W D
    omega
  have h4 : a * (W * D) + (W * D) ≤ C * (W * D) := by
    have := Nat.mul_le_mul_right (W * D) (Nat.succ_le_of_lt ha)
    simpa [Nat.succ_mul] using this
  omega

theorem sum_map_range_update : ∀ {W : Nat} {f g : Nat → Nat} {j0 d : Nat}, j0 < W →
    (∀ j < W, j ≠ j0 → g j = f j) → g j0 = f j0 + d →
    ((List.range W).map g).sum = ((List.range W).map f).sum + d := by
  intro W
  induction W with
  | zero => intro f g j0 d hj0 _ _; omega
  | succ W ih =>
    intro f g j0 d hj0 hag hup
    rw [List.range_succ, List.map_append, List.map_append, List.sum_append, List.sum_append]
    by_cases hW : j0 = W
    · subst hW
      have hmap : (List.range j0).map g = (List.range j0).map f :=
        List.map_congr_left (fun j hj =>
          hag j (Nat.lt_succ_of_lt (List.mem_range.mp hj)) (Nat.ne_of_lt (List.mem_range.mp hj)))
      rw [hmap]
      simp only [List.map_cons, List.map_nil, List.sum_cons, List.sum_nil]
      omega
    · have hj0' : j0 < W := by
        have := Nat.lt_succ_iff_lt_or_eq.mp hj0
        tauto
      have hrec := ih hj0' (fun j hj hne => hag j (Nat.lt_succ_of_lt hj) hne) hup
      simp only [List.map_cons, List.map_nil, List.sum_cons, List.sum_nil]
      have hgW : g W = f W := hag W (Nat.lt_succ_self W) (fun h => hW h.symm)
      omega

theorem sum_map_range_add (W : Nat) (f g : Nat → Nat) :
    ((List.range W).map (fun j => f j + g j)).sum =
      ((List.range W).map f).sum + ((List.range W).map g).sum := by
  induction W with
  | zero => rfl
  | succ W ih =>
    rw [List.range_succ, List.map_append, List.map_append, List.map_append,
      List.sum_append, List.sum_append, List.sum_append]
    simp only [List.map_cons, List.map_nil, List.sum_cons, List.sum_nil]
    omega

theorem sum_map_range_congr {W : Nat} {f g : Nat → Nat} (h : ∀ j < W, f j = g j) :
    ((List.range W).map f).sum = ((List.range W).map g).sum := by
  have : (List.range W).map f = (List.range W).map g :=
    List.map_congr_left (fun j hj => h j (List.mem_range.mp hj))
  rw [this]

/-! ### Field-preservation facts for the primitive operations -/

theorem sample_add_tc (B : Nat) (c : Cell) (item : Nat) :
    (omnisketch_sample_add B c item).totalCount = c.totalCount := by
  simp only [omnisketch_sample_add]
  split_ifs <;> rfl

theorem sample_add_len (B : Nat) (c : Cell) (item : Nat) :
    (omnisketch_sample_add B c item).slots.length = c.slots.length := by
  simp only [omnisketch_sample_add]
  split_ifs <;> simp [List.length_set]

theorem sample_add_sc_le {B : Nat} {c : Cell} (item : Nat) (h : c.sampleCount ≤ B) :
    (omnisketch_sample_add B c item).sampleCount ≤ B := by
  simp only [omnisketch_sample_add]
  split_ifs
  all_goals (try dsimp only)
  all_goals omega

theorem sample_add_sc_pos {B : Nat} {c : Cell} (item : Nat) (hB : 1 ≤ B) :
    0 < (omnisketch_sample_add B c item).sampleCount := by
  simp only [omnisketch_sample_add]
  split_ifs
  all_goals (try dsimp only)
  all_goals omega

theorem finalize_cell_tc (c : Cell) : (finalize_cell c).totalCount = c.totalCount := by
  unfold finalize_cell
  split_ifs <;> rfl

theorem merge_buckets_tc {B : Nat} {dst src : Cell}
    (h : src.sampleCount = 0 → src.totalCount = 0) :
    (omnisketch_merge_buckets B dst src).totalCount = dst.totalCount + src.totalCount := by
  by_cases h0 : src.sampleCount = 0
  · rw [merge_buckets_src_empty h0, h h0]
    omega
  · unfold omnisketch_merge_buckets
    rw [if_neg h0]

/-! ### Per-cell structural facts carried along a trace -/

def cellsOK (B : Nat) (cells : List Cell) : Prop :=
  ∀ c ∈ cells, c.slots.length = B ∧ c.sampleCount ≤ B ∧ (c.sampleCount = 0 → c.totalCount = 0)

theorem getD_map_fin (l : List Cell) (n : Nat) (d : Cell) (h : n < l.length) :
    (l.map finalize_cell).getD n d = finalize_cell (l.getD n d) := by
  rw [List.getD_eq_getElem?_getD, List.getElem?_map, List.getElem?_eq_getElem h,
    List.getD_eq_getElem l d h]
  rfl

theorem getD_zipWith_merge (B : Nat) (l1 l2 : List Cell) (n : Nat) (d : Cell)
    (h1 : n < l1.length) (h2 : n < l2.length) :
    (List.zipWith (omnisketch_merge_buckets B) l1 l2).getD n d =
      omnisketch_merge_buckets B (l1.getD n d) (l2.getD n d) := by
  rw [List.getD_eq_getElem?_getD, List.getElem?_zipWith, List.getElem?_eq_getElem h1,
    List.getElem?_eq_getElem h2, List.getD_eq_getElem l1 d h1, List.getD_eq_getElem l2 d h2]
  rfl

theorem getD_replicate_lt (n i : Nat) (a d : Cell) (h : i < n) :
    (List.replicate n a).getD i d = a := by
  rw [List.getD_eq_getElem _ _ (by rw [List.length_replicate]; exact h)]
  simp

theorem rowTotalC_set {W D : Nat} {cells : List Cell} {col r j0 idx : Nat} {c1 : Cell}
    (hj0 : j0 < W) (hr : r < D) (hidxeq : idx = col * (W * D) + r * W + j0)
    (hidx : idx < cells.length)
    (htc : c1.totalCount = (cells.getD idx (emptyCell 0)).totalCount + 1) :
    ∀ a i', i' < D →
    rowTotalC W D (cells.set idx c1) a i' =
      rowTotalC W D cells a i' + (if a = col ∧ i' = r then 1 else 0) := by
  subst hidxeq
  intro a i' hi'
  by_cases hmatch : a = col ∧ i' = r
  · obtain ⟨rfl, rfl⟩ := hmatch
    rw [if_pos ⟨rfl, rfl⟩]
    unfold rowTotalC
    apply sum_map_range_update hj0
    · intro j _ hne
      have hneidx : a * (W * D) + i' * W + j0 ≠ a * (W * D) + i' * W + j := by omega
      rw [getD_set_ne _ _ _ _ _ hneidx]
    · rw [getD_set_self _ _ _ _ hidx, htc]
  · rw [if_neg hmatch, Nat.add_zero]
    unfold rowTotalC
    apply sum_map_range_congr
    intro j hj
    have hneidx : col * (W * D) + r * W + j0 ≠ a * (W * D) + i' * W + j := by
      intro hcontra
      exact hmatch ⟨(lin_index_inj hj0 hj hr hi' hcontra).1.symm,
        (lin_index_inj hj0 hj hr hi' hcontra).2.1.symm⟩
    rw [getD_set_ne _ _ _ _ _ hneidx]

/-- The effect of the row loop of `omnisketch_add_hash` on a sketch: the
header is untouched, the per-cell structure is preserved, and each row sum
of the target column matrix grows by one per visited row. -/
theorem add_hash_rows_spec (col hash item W D B : Nat) : ∀ (rows : List Nat) (s : Sketch),
    s.sketchWidth = W → s.sketchHeight = D → s.sampleSize = B →
    rows.Nodup → (∀ r ∈ rows, r < D) → col < s.numSketches →
    s.cells.length = s.numSketches * (W * D) →
    1 ≤ W → 1 ≤ B → cellsOK B s.cells →
    ∃ cs : List Cell,
      add_hash_rows col hash item s rows = { s with cells := cs } ∧
      cs.length = s.cells.length ∧
      cellsOK B cs ∧
      (∀ a i', i' < D →
        rowTotalC W D cs a i' =
          rowTotalC W D s.cells a i' + (if a = col ∧ i' ∈ rows then 1 else 0)) := by
  intro rows
  induction rows with
  | nil =>
    intro s _ _ _ _ _ _ _ _ _ hOK
    refine ⟨s.cells, rfl, rfl, hOK, ?_⟩
    intro a i' _
    simp
  | cons r rest ih =>
    intro s hWd hHd hBd hnd hbound hcol hlen hW hB hOK
    subst hWd; subst hHd; subst hBd
    have hr : r < s.sketchHeight := hbound r (List.mem_cons_self r rest)
    have hj : xxh32 hash r % s.sketchWidth < s.sketchWidth := Nat.mod_lt _ (by omega)
    have hidx : SKETCH_BUCKET_INDEX s col r (xxh32 hash r % s.sketchWidth) < s.cells.length := by
      rw [hlen]
      exact lin_index_lt hcol hr hj
    set idx := SKETCH_BUCKET_INDEX s col r (xxh32 hash r % s.sketchWidth) with hidxdef
    set c0 := s.cells.getD idx (emptyCell s.sampleSize) with hc0def
    have hc0mem : c0 ∈ s.cells := by
      rw [hc0def, List.getD_eq_getElem _ _ hidx]
      exact List.getElem_mem hidx
    obtain ⟨hc0len, hc0sc, _⟩ := hOK c0 hc0mem
    set c1 := omnisketch_sample_add s.sampleSize { c0 with totalCount := c0.totalCount + 1 } item
      with hc1def
    have hOK1 : cellsOK s.sampleSize (s.cells.set idx c1) := by
      intro c hc
      rcases List.mem_or_eq_of_mem_set hc with hc' | rfl
      · exact hOK c hc'
      · refine ⟨?_, ?_, ?_⟩
        · rw [hc1def, sample_add_len]
          exact hc0len
        · rw [hc1def]
          exact sample_add_sc_le item hc0sc
        · intro h0
          have := @sample_add_sc_pos s.sampleSize
            { c0 with totalCount := c0.totalCount + 1 } item (by omega)
          rw [hc1def] at h0
          omega
    have hstep := ih { s with cells := s.cells.set idx c1 } rfl rfl rfl
      (List.nodup_cons.mp hnd).2
      (fun r' hr' => hbound r' (List.mem_cons_of_mem r hr'))
      hcol (by simpa [List.length_set] using hlen) hW hB hOK1
    obtain ⟨cs, heq, hcslen, hcsOK, hrow⟩ := hstep
    dsimp only at heq hcslen hrow
    refine ⟨cs, ?_, ?_, hcsOK, ?_⟩
    · show add_hash_rows col hash item s (r :: rest) = { s with cells := cs }
      simp only [add_hash_rows]
      exact heq
    · rw [hcslen, List.length_set]
    · intro a i' hi'
      have h1 := hrow a i' hi'
      have htc1 : c1.totalCount = (s.cells.getD idx (emptyCell 0)).totalCount + 1 := by
        rw [hc1def, sample_add_tc]
        show c0.totalCount + 1 = _ + 1
        congr 1
        rw [hc0def, List.getD_eq_getElem _ _ hidx, List.getD_eq_getElem _ _ hidx]
      have hidxeq : idx =
          col * (s.sketchWidth * s.sketchHeight) + r * s.sketchWidth +
            xxh32 hash r % s.sketchWidth := by
        rw [hidxdef]; rfl
      have h2 := rowTotalC_set hj hr hidxeq hidx htc1 a i' hi'
      rw [h1, h2]
      have hnr : r ∉ rest := (List.nodup_cons.mp hnd).1
      simp only [List.mem_cons]
      by_cases ha : a = col
      · simp only [ha, true_and]
        by_cases hir : i' = r
        · simp [hir, hnr]
        · by_cases hirest : i' ∈ rest
          · simp [hir, hirest]
          · simp [hir, hirest]
      · simp [ha]


/-- The effect of the column loop of `omnisketch_add`: every column matrix
whose index is at least the starting column gets one more record in each of
its rows. -/
theorem add_columns_spec (item : Nat) : ∀ (hs : List Nat) (i0 : Nat) (s : Sketch),
    i0 + hs.length = s.numSketches →
    s.cells.length = s.numSketches * (s.sketchWidth * s.sketchHeight) →
    1 ≤ s.sketchWidth → 1 ≤ s.sampleSize → cellsOK s.sampleSize s.cells →
    ∃ cs : List Cell,
      add_columns item s i0 hs = { s with cells := cs } ∧
      cs.length = s.cells.length ∧
      cellsOK s.sampleSize cs ∧
      (∀ a i', a < s.numSketches → i' < s.sketchHeight →
        rowTotalC s.sketchWidth s.sketchHeight cs a i' =
          rowTotalC s.sketchWidth s.sketchHeight s.cells a i' + (if i0 ≤ a then 1 else 0)) := by
  intro hs
  induction hs with
  | nil =>
    intro i0 s hC _ _ _ hOK
    simp only [List.length_nil] at hC
    refine ⟨s.cells, rfl, rfl, hOK, ?_⟩
    intro a i' ha _
    rw [if_neg (by omega), Nat.add_zero]
  | cons h hs ih =>
    intro i0 s hC hlen hW hB hOK
    have hcol : i0 < s.numSketches := by
      simp only [List.length_cons] at hC
      omega
    obtain ⟨cs1, heq1, hlen1, hOK1, hrow1⟩ :=
      add_hash_rows_spec i0 h item s.sketchWidth s.sketchHeight s.sampleSize
        (List.range s.sketchHeight) s rfl rfl rfl (List.nodup_range s.sketchHeight)
        (fun r hr => List.mem_range.mp hr) hcol hlen hW hB hOK
    have hstep := ih (i0 + 1) { s with cells := cs1 }
      (by simp only [List.length_cons] at hC; show i0 + 1 + hs.length = s.numSketches; omega)
      (by show cs1.length = _; rw [hlen1, hlen])
      hW hB hOK1
    obtain ⟨cs, heq2, hlen2, hOK2, hrow2⟩ := hstep
    dsimp only at heq2 hlen2 hrow2
    refine ⟨cs, ?_, ?_, hOK2, ?_⟩
    · show add_columns item s i0 (h :: hs) = { s with cells := cs }
      simp only [add_columns, omnisketch_add_hash]
      rw [heq1]
      exact heq2
    · rw [hlen2, hlen1]
    · intro a i' ha hi'
      have h1 := hrow1 a i' hi'
      have h2 := hrow2 a i' ha hi'
      rw [h2, h1]
      have hmem : i' ∈ List.range s.sketchHeight := List.mem_range.mpr hi'
      by_cases hai : a = i0
      · subst hai
        simp [hmem]
      · by_cases hle : i0 ≤ a
        · have : i0 + 1 ≤ a := by omega
          simp [hai, hle, this]
        · have : ¬(i0 + 1 ≤ a) := by omega
          simp [hai, hle, this]

theorem omnisketch_add_spec (s : Sketch) (hashes : List Nat)
    (hlen : hashes.length = s.numSketches)
    (hc : s.cells.length = s.numSketches * (s.sketchWidth * s.sketchHeight))
    (hW : 1 ≤ s.sketchWidth) (hB : 1 ≤ s.sampleSize) (hOK : cellsOK s.sampleSize s.cells) :
    ∃ cs : List Cell,
      omnisketch_add s hashes = { s with count := s.count + 1, cells := cs } ∧
      cs.length = s.cells.length ∧
      cellsOK s.sampleSize cs ∧
      (∀ a i', a < s.numSketches → i' < s.sketchHeight →
        rowTotalC s.sketchWidth s.sketchHeight cs a i' =
          rowTotalC s.sketchWidth s.sketchHeight s.cells a i' + 1) := by
  obtain ⟨cs, heq, hl, hOK', hrow⟩ :=
    add_columns_spec (xxh32 (s.count + 1) s.seed) hashes 0 { s with count := s.count + 1 }
      (by show 0 + hashes.length = s.numSketches; omega)
      (by show s.cells.length = _; exact hc)
      hW hB hOK
  dsimp only at heq hl hrow
  refine ⟨cs, ?_, hl, hOK', ?_⟩
  · show omnisketch_add s hashes = _
    simp only [omnisketch_add]
    exact heq
  · intro a i' ha hi'
    have := hrow a i' ha hi'
    simpa using this

theorem merge_loop_length (B : Nat) (xs ys : List Nat) :
    (merge_loop B xs ys).length = min B (xs.length + ys.length) := by
  rw [merge_loop_eq_take, List.length_take, mergeLe_length]

theorem sorted_items_length (c : Cell) :
    (omnisketch_sorted_items c).length = (stored c).length := by
  unfold omnisketch_sorted_items
  split_ifs
  · rfl
  · exact List.length_insertionSort _ _

theorem merge_buckets_len {B : Nat} {dst src : Cell} (hd : dst.slots.length = B) :
    (omnisketch_merge_buckets B dst src).slots.length = B := by
  by_cases h0 : src.sampleCount = 0
  · rw [merge_buckets_src_empty h0]
    exact hd
  · unfold omnisketch_merge_buckets
    rw [if_neg h0]
    show (_ ++ dst.slots.drop _).length = B
    rw [List.length_append, List.length_drop, hd, merge_loop_length]
    omega

theorem merge_buckets_sc_le {B : Nat} {dst src : Cell} (hk : dst.sampleCount ≤ B) :
    (omnisketch_merge_buckets B dst src).sampleCount ≤ B := by
  by_cases h0 : src.sampleCount = 0
  · rw [merge_buckets_src_empty h0]
    exact hk
  · unfold omnisketch_merge_buckets
    rw [if_neg h0]
    show (merge_loop _ _ _).length ≤ B
    rw [merge_loop_length]
    omega

theorem merge_buckets_sc0 {B : Nat} {dst src : Cell} (hB : 1 ≤ B)
    (hdst : dst.sampleCount = 0 → dst.totalCount = 0)
    (hslen : src.slots.length = B) (hssc : src.sampleCount ≤ B) :
    (omnisketch_merge_buckets B dst src).sampleCount = 0 →
      (omnisketch_merge_buckets B dst src).totalCount = 0 := by
  by_cases h0 : src.sampleCount = 0
  · rw [merge_buckets_src_empty h0]
    exact hdst
  · unfold omnisketch_merge_buckets
    rw [if_neg h0]
    intro hk
    exfalso
    have hsl : (omnisketch_sorted_items src).length = src.sampleCount := by
      rw [sorted_items_length, stored, List.length_take, hslen]
      omega
    have : (merge_loop B (omnisketch_sorted_items dst) (omnisketch_sorted_items src)).length = 0 :=
      hk
    rw [merge_loop_length, hsl] at this
    omega

theorem cellsOK_zipWith {B : Nat} (hB : 1 ≤ B) : ∀ l1 l2 : List Cell,
    cellsOK B l1 → cellsOK B l2 →
    cellsOK B (List.zipWith (omnisketch_merge_buckets B) l1 l2) := by
  intro l1
  induction l1 with
  | nil => intro l2 _ _ c hc; simp at hc
  | cons x xs ih =>
    intro l2 h1 h2 c hc
    cases l2 with
    | nil => simp at hc
    | cons y ys =>
      rw [List.zipWith_cons_cons] at hc
      rcases List.mem_cons.mp hc with rfl | hc'
      · obtain ⟨hx1, hx2, hx3⟩ := h1 x (List.mem_cons_self x xs)
        obtain ⟨hy1, hy2, hy3⟩ := h2 y (List.mem_cons_self y ys)
        exact ⟨merge_buckets_len hx1, merge_buckets_sc_le hx2,
          merge_buckets_sc0 hB hx3 hy1 hy2⟩
      · exact ih ys (fun c' hc'' => h1 c' (List.mem_cons_of_mem x hc''))
          (fun c' hc'' => h2 c' (List.mem_cons_of_mem y hc'')) c hc'

theorem rowTotalC_zipWith {W D B : Nat} {l1 l2 : List Cell} (hlen : l1.length = l2.length)
    (hOK2 : cellsOK B l2) (a i' : Nat)
    (hr : ∀ j, j < W → a * (W * D) + i' * W + j < l1.length) :
    rowTotalC W D (List.zipWith (omnisketch_merge_buckets B) l1 l2) a i' =
      rowTotalC W D l1 a i' + rowTotalC W D l2 a i' := by
  unfold rowTotalC
  rw [← sum_map_range_add]
  apply sum_map_range_congr
  intro j hj
  have hidx1 := hr j hj
  have hidx2 : a * (W * D) + i' * W + j < l2.length := by omega
  rw [getD_zipWith_merge B l1 l2 _ _ hidx1 hidx2]
  apply merge_buckets_tc
  have hmem : l2.getD (a * (W * D) + i' * W + j) (emptyCell 0) ∈ l2 := by
    rw [List.getD_eq_getElem _ _ hidx2]
    exact List.getElem_mem hidx2
  exact (hOK2 _ hmem).2.2

theorem rowTotalC_map_fin {W D : Nat} {l : List Cell} (a i' : Nat)
    (hr : ∀ j, j < W → a * (W * D) + i' * W + j < l.length) :
    rowTotalC W D (l.map finalize_cell) a i' = rowTotalC W D l a i' := by
  apply sum_map_range_congr
  intro j hj
  rw [getD_map_fin _ _ _ (hr j hj), finalize_cell_tc]

theorem finalize_cell_len {B : Nat} {c : Cell} (h1 : c.slots.length = B)
    (h2 : c.sampleCount ≤ B) : (finalize_cell c).slots.length = B := by
  unfold finalize_cell
  split_ifs
  · exact h1
  · show (_ ++ c.slots.drop _).length = B
    rw [List.length_append, List.length_insertionSort, stored, List.length_take,
      List.length_drop, h1]
    omega
  · exact h1

theorem cellsOK_map_fin {B : Nat} {l : List Cell} (hOK : cellsOK B l) :
    cellsOK B (l.map finalize_cell) := by
  intro c hc
  obtain ⟨c0, hc0, rfl⟩ := List.mem_map.mp hc
  obtain ⟨h1, h2, h3⟩ := hOK c0 hc0
  refine ⟨finalize_cell_len h1 h2, ?_, ?_⟩
  · rw [finalize_cell_sc]
    exact h2
  · rw [finalize_cell_sc, finalize_cell_tc]
    exact h3

/-- The structural invariant carried along every build trace: valid cell
lengths, positive width and sample size, per-cell structure, and the P1 row
sums. -/
def InvS (s : Sketch) : Prop :=
  s.cells.length = s.numSketches * (s.sketchWidth * s.sketchHeight) ∧
  1 ≤ s.sketchWidth ∧ 1 ≤ s.sampleSize ∧
  cellsOK s.sampleSize s.cells ∧
  (∀ a i', a < s.numSketches → i' < s.sketchHeight →
    rowTotalC s.sketchWidth s.sketchHeight s.cells a i' = s.count)

theorem runT_inv : ∀ (t : Trace) (s : Sketch), runT t = some s → trace_valid t = true →
    InvS s := by
  intro t
  induction t with
  | init C W D B b seed =>
    intro s hrun hval
    simp only [runT, Option.some.injEq] at hrun
    subst hrun
    simp only [trace_valid, Bool.and_eq_true, decide_eq_true_eq] at hval
    show InvS (omnisketch_allocate C W D B b seed)
    unfold InvS omnisketch_allocate
    dsimp only
    refine ⟨by simp, hval.1, hval.2, ?_, ?_⟩
    · intro c hc
      rw [List.eq_of_mem_replicate hc]
      exact ⟨by simp [emptyCell], by simp [emptyCell], fun _ => rfl⟩
    · intro a i' ha hi'
      unfold rowTotalC
      have hz : ∀ j, j < W → ((List.replicate (C * (W * D)) (emptyCell B)).getD
          (a * (W * D) + i' * W + j) (emptyCell 0)).totalCount = (fun _ : Nat => 0) j := by
        intro j hj
        rw [getD_replicate_lt _ _ _ _ (lin_index_lt ha hi' hj)]
        rfl
      rw [sum_map_range_congr hz]
      simp
  | add t hashes ih =>
    intro s hrun hval
    simp only [runT] at hrun
    cases hr : runT t with
    | none => rw [hr] at hrun; exact absurd hrun (by simp)
    | some s0 =>
      rw [hr] at hrun
      dsimp only at hrun
      simp only [trace_valid] at hval
      obtain ⟨hlen0, hW, hB, hOK, hrow⟩ := ih s0 hr hval
      by_cases hl : hashes.length = s0.numSketches
      · rw [if_pos hl] at hrun
        injection hrun with hrun
        subst hrun
        obtain ⟨cs, heq, hcl, hcOK, hcrow⟩ := omnisketch_add_spec s0 hashes hl hlen0 hW hB hOK
        rw [heq]
        refine ⟨by show cs.length = _; rw [hcl, hlen0], hW, hB, hcOK, ?_⟩
        intro a i' ha hi'
        show rowTotalC s0.sketchWidth s0.sketchHeight cs a i' = s0.count + 1
        rw [hcrow a i' ha hi', hrow a i' ha hi']
      · rw [if_neg hl] at hrun
        exact absurd hrun (by simp)
  | comb t1 t2 ih1 ih2 =>
    intro s hrun hval
    simp only [runT] at hrun
    simp only [trace_valid, Bool.and_eq_true] at hval
    cases hr1 : runT t1 with
    | none => rw [hr1] at hrun; exact absurd hrun (by simp)
    | some d =>
      cases hr2 : runT t2 with
      | none => rw [hr1, hr2] at hrun; exact absurd hrun (by simp)
      | some s0 =>
        rw [hr1, hr2] at hrun
        dsimp only at hrun
        by_cases he : omnisketch_equals s0 d = true
        · rw [if_pos he] at hrun
          injection hrun with hrun
          subst hrun
          obtain ⟨e1, e2, e3, e4, e5⟩ := equals_fields he
          obtain ⟨dlen, dW, dB, dOK, drow⟩ := ih1 d hr1 hval.1
          obtain ⟨slen, sW, sB, sOK, srow⟩ := ih2 s0 hr2 hval.2
          have hlen_eq : d.cells.length = s0.cells.length := by
            rw [dlen, slen, e1, e2, e3]
          have sOK' : cellsOK d.sampleSize s0.cells := by rw [← e4]; exact sOK
          show InvS (omnisketch_combine d s0)
          unfold InvS omnisketch_combine
          dsimp only
          refine ⟨?_, dW, dB, ?_, ?_⟩
          · rw [List.length_zipWith, hlen_eq, Nat.min_self, ← hlen_eq, dlen]
          · exact cellsOK_zipWith dB d.cells s0.cells dOK sOK'
          · intro a i' ha hi'
            rw [rowTotalC_zipWith hlen_eq sOK' a i'
              (fun j hj => by rw [dlen]; exact lin_index_lt ha hi' hj)]
            have hd := drow a i' ha hi'
            have hs := srow a i' (by rw [← e1] at ha; exact ha) (by rw [← e2] at hi'; exact hi')
            rw [e3, e2] at hs
            rw [hd, hs]
        · rw [if_neg he] at hrun
          exact absurd hrun (by simp)
  | fin t ih =>
    intro s hrun hval
    simp only [runT, Option.map_eq_some'] at hrun
    obtain ⟨s0, hr0, hrun⟩ := hrun
    subst hrun
    simp only [trace_valid] at hval
    obtain ⟨hlen0, hW, hB, hOK, hrow⟩ := ih s0 hr0 hval
    show InvS (omnisketch_finalize s0)
    unfold InvS omnisketch_finalize
    dsimp only
    refine ⟨?_, hW, hB, ?_, ?_⟩
    · rw [List.length_map, hlen0]
    · exact cellsOK_map_fin hOK
    · intro a i' ha hi'
      rw [rowTotalC_map_fin a i' (fun j hj => by rw [hlen0]; exact lin_index_lt ha hi' hj)]
      exact hrow a i' ha hi'

/-! ## Auxiliary list lemma for the pair-threaded combine (C9) -/

theorem zipWith_merge_pair_snd (B : Nat) : ∀ l1 l2 : List Cell, l1.length = l2.length →
    List.zipWith (fun d c => (omnisketch_merge_buckets_pair B d c).2) l1 l2 = l2 := by
  intro l1
  induction l1 with
  | nil =>
    intro l2 h
    have : l2 = [] := List.length_eq_zero.mp h.symm
    subst this
    rfl
  | cons x xs ih =>
    intro l2 h
    cases l2 with
    | nil => simp at h
    | cons y ys =>
      rw [List.zipWith_cons_cons, ih ys (by simpa using h)]
      rfl

/-! ## The claims -/

/-- Build trace of the C1 failing input: one column, `W = 2`, `D = 1`,
`B = 2`, seed 0; three records with column hash 0; finalized. -/
def cx1_t : Trace :=
  .fin (.add (.add (.add (.init 1 2 1 2 20 0) [0]) [0]) [0])

/-- C1 (code bug witnessed): on the finalized sketch built by `cx1_t` and
the query hash 0, the visited bucket has `total_count = 3`, the final
candidate set has 2 ids, and with `B = 2` the claimed estimate is
`⌊3·2/2⌋ = 3`, but `omnisketch_estimate` returns `3 / 2 * 2 = 2`: the C
expression `maxcnt / sketch->sampleSize * items->nitems` divides first in
integer arithmetic even though the result variable `est` is a `double`. -/
theorem C1_estimate_integer_division :
    (runT cx1_t).map (fun s => omnisketch_estimate s [0]) = some 2 ∧
    (runT cx1_t).map (fun s => (estimate_columns s 0 [0] (0, none)).1) = some 3 ∧
    (runT cx1_t).map (fun s =>
      match (estimate_columns s 0 [0] (0, none)).2 with
      | some l => l.length
      | none => 0) = some 2 ∧
    3 * 2 / 2 = 3 := by
  decide

/-- Build trace of the C2 failing input: two single-record sketches with
seeds 1 and 3 are combined (the merged cell becomes sorted with
`is_sorted = true`), then a third record is added into the same cell with a
smaller `H_s` than the cell's `max_hash`, and the sketch is finalized. -/
def cx2_t : Trace :=
  .fin (.add (.comb (.add (.init 1 2 1 4 20 1) [0]) (.add (.init 1 2 1 4 20 3) [0])) [0])

/-- C2 (code bug witnessed): after the finalize at the end of `cx2_t`, the
non-empty cell still has `is_sorted = true` from the earlier merge even
though the insertion broke the order (`omnisketch_sample_add` never resets
the flag, see the `FIXME` above it), so finalize skips the cell and its
stored ids are not sorted by `(H_s, id)`, contradicting P2. -/
theorem C2_bottomk_order_violated :
    (runT cx2_t).map (fun s => (s.cells.getD 1 (emptyCell 4)).isSorted) = some true ∧
    (runT cx2_t).map (fun s => stored (s.cells.getD 1 (emptyCell 4))) =
      some [3935641242, 3121614155, 34263700] ∧
    (runT cx2_t).map
      (fun s => decide (List.Pairwise ile (stored (s.cells.getD 1 (emptyCell 4))))) =
      some false := by
  decide

/-- The cell reached by the C4 failing input: two records with column hash
0 under seed 0, then finalized (`is_sorted = true`). -/
def cx4_cell : Cell :=
  ⟨2, 2, 1, 3900771395, true, [4089149075, 527729046, 0, 0]⟩

/-- Build trace reaching `cx4_cell` at linear index 1. -/
def cx4_t : Trace := .fin (.add (.add (.init 1 2 1 4 20 0) [0]) [0])

/-- C4 (code bug witnessed): `cx4_cell` is the finalized cell produced by
`cx4_t`; its sample is not full (2 < 4), and `omnisketch_sample_add`
appends the next id and bumps `sample_count`, but leaves `is_sorted = true`
instead of clearing it unconditionally (the `FIXME` above
`omnisketch_sample_add` records the missing reset; `AssertCheckBucket`
would fail on the resulting cell). -/
theorem C4_isSorted_not_cleared :
    (runT cx4_t).map (fun s => s.cells.getD 1 (emptyCell 4)) = some cx4_cell ∧
    cx4_cell.sampleCount < 4 ∧
    (omnisketch_sample_add 4 cx4_cell 2158931063).sampleCount = cx4_cell.sampleCount + 1 ∧
    (omnisketch_sample_add 4 cx4_cell 2158931063).slots =
      [4089149075, 527729046, 2158931063, 0] ∧
    (omnisketch_sample_add 4 cx4_cell 2158931063).isSorted = true := by
  decide

/-- Build trace of the C5 counterexample: a single record, then finalize. -/
def cx5_t : Trace := .fin (.add (.init 1 2 1 4 20 0) [0])

/-- C5 (counterexample): after finalize, the cell holding exactly one
sample still has `is_sorted = false` — `omnisketch_finalize` only
processes cells with `sampleCount ≥ 2`, refuting "every cell with
`sample_count > 0` has `is_sorted = true`". -/
theorem C5_counterexample :
    (runT cx5_t).map (fun s => (s.cells.getD 1 (emptyCell 4)).sampleCount) = some 1 ∧
    (runT cx5_t).map (fun s => (s.cells.getD 1 (emptyCell 4)).isSorted) = some false := by
  decide

/-- C5 (amended): after `omnisketch_finalize`, every cell with at least
two samples has `is_sorted = true`, its stored ids strictly increasing
under `(H_s, id)`, and `max_index = sample_count - 1`; and finalize is
idempotent.  (Cells with exactly one sample keep their flag.) -/
theorem C5_finalize_amended (s : Sketch) (hw : WF s) (hids : WFids s) :
    (∀ c ∈ (omnisketch_finalize s).cells, 2 ≤ c.sampleCount →
      c.isSorted = true ∧ List.Pairwise ilt (stored c) ∧
        c.maxIndex = c.sampleCount - 1) ∧
    omnisketch_finalize (omnisketch_finalize s) = omnisketch_finalize s := by
  constructor
  · intro c hc h2
    simp only [omnisketch_finalize] at hc
    obtain ⟨c0, hc0, rfl⟩ := List.mem_map.mp hc
    have hwc := hw.2.2 c0 hc0
    obtain ⟨hn, hb⟩ := hids c0 hc0
    rw [finalize_cell_sc] at h2
    exact finalize_cell_spec hwc hn hb h2
  · exact omnisketch_finalize_idem s

/-- The sketch used to witness C5's amended statement. -/
def wit5_s : Sketch :=
  omnisketch_add (omnisketch_add (omnisketch_allocate 1 2 1 4 20 0) [0]) [0]

/-- Witness for C5's amended theorem at a concrete two-record sketch. -/
theorem C5_witness :
    omnisketch_finalize (omnisketch_finalize wit5_s) = omnisketch_finalize wit5_s :=
  (C5_finalize_amended wit5_s (by decide) (by decide)).2

/-- The C3 counterexample sketches: `cx3A` holds one record under seed 5;
`cx3B` and `cx3C` are empty sketches with seeds 6 and 7. -/
def cx3A : Sketch := omnisketch_add (omnisketch_allocate 1 2 1 2 20 5) [0]

def cx3B : Sketch := omnisketch_allocate 1 2 1 2 20 6

def cx3C : Sketch := omnisketch_allocate 1 2 1 2 20 7

/-- C3 (counterexample): three structurally equal sketches with pairwise
disjoint ID spaces for which `combine(combine(A,B),C)` and
`combine(combine(C,A),B)` are not byte-identical after finalize: the
result keeps the first argument's `seed` header field (5 vs 7), and the
single-sample cell's `is_sorted` flag differs (finalize skips it in one
order, the merge loop set it in the other). -/
theorem C3_counterexample :
    omnisketch_equals cx3A cx3B = true ∧ omnisketch_equals cx3A cx3C = true ∧
    disjointIds cx3A cx3B ∧ disjointIds cx3A cx3C ∧ disjointIds cx3B cx3C ∧
    omnisketch_finalize (omnisketch_combine (omnisketch_combine cx3A cx3B) cx3C) ≠
      omnisketch_finalize (omnisketch_combine (omnisketch_combine cx3C cx3A) cx3B) := by
  decide

/-- Witness for C3's amended theorem at the concrete sketches `cx3A`,
`cx3B`, `cx3C`. -/
theorem C3_witness :
    omnisketch_finalize (omnisketch_combine (omnisketch_combine cx3A cx3B) cx3C) =
      omnisketch_finalize (omnisketch_combine cx3A (omnisketch_combine cx3B cx3C)) ∧
    sketchAgreeExceptSeed
      (omnisketch_finalize (omnisketch_combine (omnisketch_combine cx3A cx3B) cx3C))
      (omnisketch_finalize (omnisketch_combine (omnisketch_combine cx3C cx3A) cx3B)) :=
  C3_combine_assoc_rotation cx3A cx3B cx3C (by decide) (by decide) (by decide)
    (by decide) (by decide) (by decide) (by decide) (by decide)

/-- C6: count conservation is an invariant of every build trace (add,
combine, finalize): for every matrix `a` and row `i`, the sum over column
indices `j` of `buckets[a,i,j].totalCount` equals the sketch's `count`. -/
theorem C6_count_conservation (t : Trace) (s : Sketch) (hrun : runT t = some s)
    (hval : trace_valid t = true) :
    ∀ a i, a < s.numSketches → i < s.sketchHeight → rowTotal s a i = s.count := by
  intro a i ha hi
  exact (runT_inv t s hrun hval).2.2.2.2 a i ha hi

/-- Build trace used to witness C6. -/
def wit6_t : Trace := .add (.add (.init 2 3 2 4 20 11) [7, 9]) [5, 7]

/-- Witness for C6 at a concrete two-column trace. -/
theorem C6_witness :
    rowTotal (omnisketch_add (omnisketch_add (omnisketch_allocate 2 3 2 4 20 11) [7, 9]) [5, 7])
        1 1 =
      (omnisketch_add (omnisketch_add (omnisketch_allocate 2 3 2 4 20 11) [7, 9]) [5, 7]).count :=
  C6_count_conservation wit6_t _ (by decide) (by decide) 1 1 (by decide) (by decide)

/-- C10: along every build trace, a bucket with a positive `totalCount`
has a non-empty sample; equivalently `sampleCount = 0` implies
`totalCount = 0` (in particular a sample never drops back to empty once an
id has been hashed into the bucket). -/
theorem C10_sample_nonempty (t : Trace) (s : Sketch) (hrun : runT t = some s)
    (hval : trace_valid t = true) :
    ∀ c ∈ s.cells, (0 < c.totalCount → 0 < c.sampleCount) ∧
      (c.sampleCount = 0 → c.totalCount = 0) := by
  intro c hc
  have h := ((runT_inv t s hrun hval).2.2.2.1 c hc).2.2
  constructor
  · intro htc
    rcases Nat.eq_zero_or_pos c.sampleCount with h0 | h0
    · have := h h0
      omega
    · exact h0
  · exact h

/-- Build trace used to witness C10. -/
def wit10_t : Trace :=
  .fin (.comb (.add (.init 1 2 1 4 20 21) [3]) (.add (.init 1 2 1 4 20 22) [3]))

/-- The sketch produced by the C10 witness trace. -/
def wit10_s : Sketch :=
  omnisketch_finalize (omnisketch_combine
    (omnisketch_add (omnisketch_allocate 1 2 1 4 20 21) [3])
    (omnisketch_add (omnisketch_allocate 1 2 1 4 20 22) [3]))

/-- Witness for C10 at a concrete combined-and-finalized trace. -/
theorem C10_witness : 0 < (wit10_s.cells.getD 1 (emptyCell 4)).sampleCount :=
  ((C10_sample_nonempty wit10_t wit10_s (by decide) (by decide)
    (wit10_s.cells.getD 1 (emptyCell 4)) (by decide)).1 (by decide))

/-- C7: the argument contract of the combine SQL function: null/null gives
null, exactly one null returns the other sketch, structurally different
sketches raise "sketches do not match", and a successful combine of two
present sketches sums their counts.  `omnisketch_equals` compares exactly
the five fields (C, D, W, B, b). -/
theorem C7_combine_contract (a b : Sketch) :
    omnisketch_combine_args none none = Except.ok none ∧
    omnisketch_combine_args (some a) none = Except.ok (some a) ∧
    omnisketch_combine_args none (some b) = Except.ok (some b) ∧
    (omnisketch_equals b a = false →
      omnisketch_combine_args (some a) (some b) =
        Except.error "sketches do not match") ∧
    (omnisketch_equals b a = true →
      omnisketch_combine_args (some a) (some b) =
        Except.ok (some (omnisketch_combine a b)) ∧
      (omnisketch_combine a b).count = a.count + b.count) ∧
    (omnisketch_equals b a = false ↔
      (a.numSketches ≠ b.numSketches ∨ a.sketchHeight ≠ b.sketchHeight ∨
       a.sketchWidth ≠ b.sketchWidth ∨ a.sampleSize ≠ b.sampleSize ∨
       a.itemSize ≠ b.itemSize)) := by
  refine ⟨rfl, rfl, rfl, ?_, ?_, ?_⟩
  · intro h
    simp [omnisketch_combine_args, h]
  · intro h
    refine ⟨by simp [omnisketch_combine_args, h], rfl⟩
  · rw [← Bool.not_eq_true]
    simp only [omnisketch_equals, Bool.and_eq_true, beq_iff_eq]
    omega

/-- Sketches used to witness C7: structurally equal, one record each. -/
def wit7a : Sketch := omnisketch_add (omnisketch_allocate 1 2 1 4 20 30) [1]

def wit7b : Sketch := omnisketch_add (omnisketch_allocate 1 2 1 4 20 31) [2]

/-- Witness for C7 at two concrete structurally equal sketches. -/
theorem C7_witness :
    omnisketch_combine_args (some wit7a) (some wit7b) =
      Except.ok (some (omnisketch_combine wit7a wit7b)) ∧
    (omnisketch_combine wit7a wit7b).count = wit7a.count + wit7b.count :=
  (C7_combine_contract wit7a wit7b).2.2.2.2.1 (by decide)

/-- C9: combining two present, structurally equal sketches leaves the
second (source) sketch byte-for-byte unchanged — the pair-threaded model
of the C call returns `b` itself as the post-state of the second argument
— and its first component is exactly the functional `omnisketch_combine`
of the two inputs. -/
theorem C9_combine_src_unchanged (a b : Sketch)
    (_heq : omnisketch_equals b a = true) (hlen : a.cells.length = b.cells.length) :
    (omnisketch_combine_pair a b).2 = b ∧
    (omnisketch_combine_pair a b).1 = omnisketch_combine a b := by
  refine ⟨?_, ?_⟩
  · have hz := zipWith_merge_pair_snd a.sampleSize a.cells b.cells hlen
    simp only [omnisketch_combine_pair]
    rw [hz]
  · simp only [omnisketch_combine_pair, omnisketch_combine, omnisketch_merge_buckets_pair]

/-- Sketches used to witness C9. -/
def wit9a : Sketch := omnisketch_add (omnisketch_allocate 1 2 1 4 20 40) [6]

def wit9b : Sketch := omnisketch_add (omnisketch_allocate 1 2 1 4 20 41) [6]

/-- Witness for C9 at two concrete structurally equal sketches. -/
theorem C9_witness :
    (omnisketch_combine_pair wit9a wit9b).2 = wit9b ∧
    (omnisketch_combine_pair wit9a wit9b).1 = omnisketch_combine wit9a wit9b :=
  C9_combine_src_unchanged wit9a wit9b (by decide) (by decide)
